import Mathlib

/-!
Verification development for the Magic-Replace backend's content
transformation core.  The JavaScript source is shallowly embedded:

* `JsVal` models the JSON-like documents handled by the tree walkers
  (`formatValueForDiff`, `getDifferences`, `setNestedValue`); numbers
  are modelled as integers, which covers every value the code and spec
  exercise.
* A heap model (`Heap`, `HNode`, `Ref`) models reference identity, which
  is what the `WeakMap`/`WeakSet` cycle guards of `sanitizeObject` and
  `traverseAndModify` observe.  Mutable recursion with a shared visited
  set becomes explicit state passing; the unbounded JS recursion becomes
  fuel, and termination of the source is the theorem that a computable
  fuel bound always suffices.
* External collaborators (`JSON.parse`, `jsonrepair`, the Gemini call,
  the record store) are parameters, as the spec treats them as black-box
  services.
-/

namespace MagicReplace

/-- JSON-like runtime values.  `vUndefined` is JavaScript `undefined`,
`vFun` stands for any callable (function-typed) value. -/
inductive JsVal where
  | vUndefined : JsVal
  | vNull : JsVal
  | vStr (s : String) : JsVal
  | vNum (n : Int) : JsVal
  | vBool (b : Bool) : JsVal
  | vFun : JsVal
  | vArr (items : List JsVal) : JsVal
  | vObj (fields : List (String × JsVal)) : JsVal

open JsVal

mutual

/-- Structural value equality on `JsVal`; stands in for the JS `===`
check of `getDifferences` (see the no-op diff theorem for why this is
observationally faithful there). -/
def jsEq : JsVal → JsVal → Bool
  | vUndefined, vUndefined => true
  | vNull, vNull => true
  | vStr a, vStr b => a == b
  | vNum a, vNum b => a == b
  | vBool a, vBool b => a == b
  | vFun, vFun => true
  | vArr xs, vArr ys => jsEqList xs ys
  | vObj fs, vObj gs => jsEqFields fs gs
  | _, _ => false

def jsEqList : List JsVal → List JsVal → Bool
  | [], [] => true
  | x :: xs, y :: ys => jsEq x y && jsEqList xs ys
  | _, _ => false

def jsEqFields : List (String × JsVal) → List (String × JsVal) → Bool
  | [], [] => true
  | (k, v) :: fs, (l, w) :: gs => k == l && jsEq v w && jsEqFields fs gs
  | _, _ => false

end

/-- Escape one character as inside a JSON string literal
(`JSON.stringify` semantics). -/
def jsonEscapeChar (c : Char) : String :=
  if c = '"' then "\\\""
  else if c = '\\' then "\\\\"
  else if c = '\n' then "\\n"
  else if c = '\r' then "\\r"
  else if c = '\t' then "\\t"
  else if c = '\x08' then "\\b"
  else if c = '\x0c' then "\\f"
  else if c.toNat < 32 then
    "\\u00" ++ String.mk [Nat.digitChar (c.toNat / 16), Nat.digitChar (c.toNat % 16)]
  else String.mk [c]

/-- A JSON string literal with quotes, as produced by `JSON.stringify`. -/
def jsonQuote (s : String) : String :=
  "\"" ++ String.join (s.data.map jsonEscapeChar) ++ "\""

/-- Indentation of `n` spaces. -/
def spaces (n : Nat) : String := String.mk (List.replicate n ' ')

/-- Join rendered lines with `",\n"` separators. -/
def joinLines : List String → String
  | [] => ""
  | [l] => l
  | l :: ls => l ++ ",\n" ++ joinLines ls

mutual

/-- Rendering of `JSON.stringify(value, null, 2)` at indentation level `ind`:
`none` when the value is dropped (`undefined` / functions). -/
def stringifyAux : Nat → JsVal → Option String
  | _, vUndefined => none
  | _, vFun => none
  | _, vNull => some "null"
  | _, vStr s => some (jsonQuote s)
  | _, vNum n => some (toString n)
  | _, vBool b => some (if b then "true" else "false")
  | ind, vArr xs =>
    match xs with
    | [] => some "[]"
    | _ :: _ =>
      some ("[\n" ++ joinLines (stringifyList (ind + 2) xs) ++ "\n" ++ spaces ind ++ "]")
  | ind, vObj fs =>
    match stringifyFields (ind + 2) fs with
    | [] => some "\x7b\x7d"
    | ls => some ("\x7b\n" ++ joinLines ls ++ "\n" ++ spaces ind ++ "\x7d")

/-- Array elements: dropped values render as `"null"`. -/
def stringifyList : Nat → List JsVal → List String
  | _, [] => []
  | ind, x :: xs =>
    (spaces ind ++ (stringifyAux ind x).getD "null") :: stringifyList ind xs

/-- Object members: members whose value is dropped are skipped. -/
def stringifyFields : Nat → List (String × JsVal) → List String
  | _, [] => []
  | ind, (k, v) :: fs =>
    match stringifyAux ind v with
    | none => stringifyFields ind fs
    | some sv => (spaces ind ++ jsonQuote k ++ ": " ++ sv) :: stringifyFields ind fs

end

/-- Top-level `JSON.stringify(value, null, 2)` as used inside `formatValueForDiff`
(only reached on objects/arrays, where it always yields a string). -/
def jsonStringifyTop (v : JsVal) : String := (stringifyAux 0 v).getD "undefined"

/-- Model of `String.prototype.trim`: strip leading/trailing whitespace. -/
def jsTrim (s : String) : String :=
  String.mk (((s.data.dropWhile Char.isWhitespace).reverse.dropWhile
    Char.isWhitespace).reverse)

/-- Direct embedding of `formatValueForDiff` (src/config/index.js):
format different value types for user-friendly display in a diff. -/
def formatValueForDiff (value : JsVal) : String :=
  match value with
  | vUndefined => "(not set)"
  | vNull => "(empty)"
  | vStr s => if jsTrim s = "" then "(empty string)" else s
  | vArr [] => "[]"
  | vArr xs => jsonStringifyTop (vArr xs)
  | vObj [] => "\x7b\x7d"
  | vObj fs => jsonStringifyTop (vObj fs)
  | vNum n => toString n
  | vBool b => if b then "true" else "false"
  | vFun => "function"

/-- Test for `typeof v === "object" && v !== null`: true exactly for arrays and
plain objects (JS arrays have typeof `"object"`). -/
def objLike : JsVal → Bool
  | vArr _ => true
  | vObj _ => true
  | _ => false

/-- Model of `Array.isArray`. -/
def isArr : JsVal → Bool
  | vArr _ => true
  | _ => false

/-- JS array indexing `xs[i]`: `undefined` past the end. -/
def arrIdx : List JsVal → Nat → JsVal
  | [], _ => vUndefined
  | x :: _, 0 => x
  | _ :: xs, i + 1 => arrIdx xs i

/-- Length `v.length` for an array value. -/
def arrLen : JsVal → Nat
  | vArr xs => xs.length
  | _ => 0

/-- Numeric indexing `v[i]` on an array value. -/
def arrGet : JsVal → Nat → JsVal
  | vArr xs, i => arrIdx xs i
  | _, _ => vUndefined

/-- First-occurrence lookup in an object's field list (JS objects cannot
hold duplicate keys, so this is ordinary property lookup). -/
def fieldsGet : List (String × JsVal) → String → JsVal
  | [], _ => vUndefined
  | (k, v) :: fs, key => if k = key then v else fieldsGet fs key

/-- Accumulating digit-run evaluator. -/
def digitsToNatAux : Nat → List Char → Nat
  | acc, [] => acc
  | acc, c :: cs => digitsToNatAux (acc * 10 + (c.toNat - 48)) cs

/-- Digit run to number: used for canonical array-index strings. -/
def digitsToNat (cs : List Char) : Nat := digitsToNatAux 0 cs

/-- Parse a string as a natural number the way `"12".toNat?` would:
all-digit and non-empty. -/
def strToNat? (s : String) : Option Nat :=
  if s.data ≠ [] && s.data.all Char.isDigit then some (digitsToNat s.data) else none

/-- JS property read `v[key]` with a string key, for the structures the
diff walks: object key lookup, or canonical-numeric-string indexing into
an array; anything else yields `undefined`. -/
def objGet (v : JsVal) (key : String) : JsVal :=
  match v with
  | vObj fs => fieldsGet fs key
  | vArr xs =>
    match strToNat? key with
    | some i => if toString i = key then arrIdx xs i else vUndefined
    | none => vUndefined
  | _ => vUndefined

/-- Model of `Object.keys`: field names of an object, index strings of an array. -/
def objKeys : JsVal → List String
  | vObj fs => fs.map Prod.fst
  | vArr xs => (List.range xs.length).map toString
  | _ => []

/-- Insertion-ordered deduplication, as `new Set([...a, ...b])`
preserves first-occurrence order. -/
def dedupKeys (ks : List String) : List String :=
  ks.foldl (fun acc k => if k ∈ acc then acc else acc ++ [k]) []

/-- One reported change: `{ field, before, after }`. -/
structure DiffEntry where
  field : String
  before : String
  after : String
deriving DecidableEq, Repr

/-- Direct embedding of `getDifferences` (src/config/index.js):
recursively compare an original and updated value, producing the flat,
path-addressed change list.  The JS `for` loops pushing the recursive
results are rendered as `flatMap` over the same index/key sequences. -/
def getDifferences (original updated : JsVal) (parentField : String) :
    List DiffEntry :=
  if jsEq original updated then []
  else
    let before := formatValueForDiff original
    let after := formatValueForDiff updated
    if before = after then []
    else if ha : isArr original && isArr updated then
      (List.range (max (arrLen original) (arrLen updated))).flatMap fun i =>
        getDifferences (arrGet original i) (arrGet updated i)
          (parentField ++ "[" ++ toString i ++ "]")
    else if ho : objLike original && objLike updated then
      (dedupKeys (objKeys original ++ objKeys updated)).flatMap fun k =>
        getDifferences (objGet original k) (objGet updated k)
          (if parentField = "" then k else parentField ++ "." ++ k)
    else
      [{ field := parentField, before := before, after := after }]
termination_by sizeOf original + sizeOf updated
decreasing_by
  · simp only [Bool.and_eq_true] at ha
    have harr : ∀ (ys : List JsVal) (m : Nat), sizeOf (arrIdx ys m) ≤ sizeOf ys := by
      intro ys
      induction ys with
      | nil => intro m; simp [arrIdx]
      | cons y ys ih =>
        intro m
        cases m with
        | zero => simp [arrIdx]; omega
        | succ m' => have := ih m'; simp [arrIdx]; omega
    have key : ∀ (v : JsVal) (j : Nat), isArr v = true → sizeOf (arrGet v j) < sizeOf v := by
      intro v j hv
      cases v with
      | vArr xs => have := harr xs j; simp [arrGet]; omega
      | vUndefined => simp [isArr] at hv
      | vNull => simp [isArr] at hv
      | vStr s => simp [isArr] at hv
      | vNum n => simp [isArr] at hv
      | vBool b => simp [isArr] at hv
      | vFun => simp [isArr] at hv
      | vObj fs => simp [isArr] at hv
    have h1 := key original i ha.1
    have h2 := key updated i ha.2
    omega
  · simp only [Bool.and_eq_true] at ho
    have harr : ∀ (ys : List JsVal) (m : Nat), sizeOf (arrIdx ys m) ≤ sizeOf ys := by
      intro ys
      induction ys with
      | nil => intro m; simp [arrIdx]
      | cons y ys ih =>
        intro m
        cases m with
        | zero => simp [arrIdx]; omega
        | succ m' => have := ih m'; simp [arrIdx]; omega
    have hflds : ∀ (fs : List (String × JsVal)) (key : String),
        sizeOf (fieldsGet fs key) ≤ sizeOf fs := by
      intro fs key
      induction fs with
      | nil => simp [fieldsGet]
      | cons kv fs ih =>
        obtain ⟨a, b⟩ := kv
        simp only [fieldsGet]
        by_cases hk : a = key
        · simp only [if_pos hk]
          simp
          omega
        · simp only [if_neg hk]
          simp
          omega
    have hone : ∀ (ys : List JsVal), 1 ≤ sizeOf ys := by
      intro ys
      cases ys with
      | nil => simp
      | cons y ys => simp; omega
    have key : ∀ (v : JsVal) (s : String), objLike v = true → sizeOf (objGet v s) < sizeOf v := by
      intro v s hv
      cases v with
      | vObj fs => have := hflds fs s; simp [objGet]; omega
      | vArr xs =>
        have hpos := hone xs
        simp only [objGet]
        cases strToNat? s with
        | none => simp; omega
        | some i =>
          by_cases hi : toString i = s
          · have := harr xs i
            simp [hi]
            omega
          · simp [hi]; omega
      | vUndefined => simp [objLike] at hv
      | vNull => simp [objLike] at hv
      | vStr s => simp [objLike] at hv
      | vNum n => simp [objLike] at hv
      | vBool b => simp [objLike] at hv
      | vFun => simp [objLike] at hv
    have h1 := key original k ho.1
    have h2 := key updated k ho.2
    omega

/-! ### String helpers shared by the replacement and apply paths -/

/-- Test of `list.startsWith sub` on characters. -/
def charsHaveStart : List Char → List Char → Bool
  | _, [] => true
  | [], _ :: _ => false
  | c :: cs, d :: ds => c == d && charsHaveStart cs ds

/-- JS `String.prototype.includes`: substring containment. -/
def charsContain : List Char → List Char → Bool
  | [], sub => sub.isEmpty
  | c :: rest, sub =>
    if charsHaveStart (c :: rest) sub then true else charsContain rest sub

/-- Containment `haystack.includes(needle)` on strings. -/
def strIncludes (haystack needle : String) : Bool :=
  charsContain haystack.data needle.data

/-- Model of `String.prototype.toLowerCase` (ASCII case folding). -/
def jsLower (s : String) : String := String.mk (s.data.map Char.toLower)

/-- Model of `replacers.reduce((text, func) => func(text), data)`: apply each
replacer in list order, piping the output of one into the next. -/
def applyReplacers (replacers : List (String → String)) (text : String) : String :=
  replacers.foldl (fun t f => f t) text

/-! ### Heap model: reference identity for the cycle guards -/

/-- Primitive (non-reference) JS values. -/
inductive Prim where
  | pUndef : Prim
  | pNull : Prim
  | pStr (s : String) : Prim
  | pNum (n : Int) : Prim
  | pBool (b : Bool) : Prim
  | pFun : Prim
deriving DecidableEq, Repr

/-- A value slot: either an immediate primitive or a reference to a heap
object/array.  Two occurrences of `Ref.addr a` are the *same* object, as
observed by `WeakMap`/`WeakSet` identity. -/
inductive Ref where
  | prim (p : Prim) : Ref
  | addr (a : Nat) : Ref
deriving DecidableEq, Repr

/-- Heap nodes: arrays of slots or ordered-key objects of slots. -/
inductive HNode where
  | arr (items : List Ref) : HNode
  | obj (fields : List (String × Ref)) : HNode

/-- A heap: finitely many addressed nodes. -/
abbrev Heap := List (Nat × HNode)

/-- Address lookup in a heap. -/
def lookupNode (h : Heap) (a : Nat) : Option HNode := List.lookup a h

/-- The child slots of a node. -/
def nodeRefs : HNode → List Ref
  | .arr items => items
  | .obj fields => fields.map Prod.snd

/-- A slot is resolvable: primitive, or an address present in the heap. -/
def refOk (h : Heap) : Ref → Bool
  | .prim _ => true
  | .addr a => (lookupNode h a).isSome

/-- Well-formed heap: every child slot of every node resolves. -/
def wfHeap (h : Heap) : Bool :=
  h.all fun an => (nodeRefs an.2).all (refOk h)

/-- State-threading `mapM` over `Option`: the explicit-state rendering of
a JS loop that mutates a shared visited set while building a list. -/
def stMapM {σ α β : Type} (f : σ → α → Option (β × σ)) : σ → List α → Option (List β × σ)
  | s, [] => some ([], s)
  | s, a :: rest =>
    match f s a with
    | none => none
    | some (b, s') =>
      match stMapM f s' rest with
      | none => none
      | some (bs, s'') => some (b :: bs, s'')

/-- Object-field step for `traverseAndModify`: recurse into the value,
keep the key. -/
def traverseFieldStep (g : List Nat → Ref → Option (JsVal × List Nat)) :
    List Nat → String × Ref → Option ((String × JsVal) × List Nat) :=
  fun s kv =>
    match g s kv.2 with
    | none => none
    | some (v, s') => some ((kv.1, v), s')

/-- Direct embedding of `traverseAndModify` (src/config/index.js) over
the heap model.  The shared `WeakSet` `seen` is the threaded `List Nat`
of visited addresses; `fuel` bounds the recursion depth (the JS function
has no such bound — termination with a computed bound is proved below).
The output is a plain tree because revisited references are replaced by
the `"[Circular Reference]"` sentinel string. -/
def traverseAndModify (h : Heap) (replacers : List (String → String)) :
    Nat → List Nat → Ref → Option (JsVal × List Nat)
  | 0, _, _ => none
  | fuel + 1, seen, r =>
    match r with
    | .prim .pNull => some (vNull, seen)
    | .prim .pUndef => some (vUndefined, seen)
    | .prim (.pStr s) => some (vStr (applyReplacers replacers s), seen)
    | .prim (.pNum n) => some (vNum n, seen)
    | .prim (.pBool b) => some (vBool b, seen)
    | .prim .pFun => some (vFun, seen)
    | .addr a =>
      if a ∈ seen then some (vStr "[Circular Reference]", seen)
      else
        match lookupNode h a with
        | none => none
        | some (.arr items) =>
          match stMapM (fun s r0 => traverseAndModify h replacers fuel s r0)
              (seen ++ [a]) items with
          | none => none
          | some (vs, s') => some (vArr vs, s')
        | some (.obj fields) =>
          match stMapM (traverseFieldStep
              (fun s r0 => traverseAndModify h replacers fuel s r0))
              (seen ++ [a]) fields with
          | none => none
          | some (fvs, s') => some (vObj fvs, s')

/-- The object-field loop of `sanitizeObject`: fields whose value is a
function are dropped (`typeof data[key] !== "function"`), every other
field is recursed into. -/
def sanitizeFieldsM {σ : Type} (f : σ → Ref → Option (Ref × σ)) :
    σ → List (String × Ref) → Option (List (String × Ref) × σ)
  | st, [] => some ([], st)
  | st, (k, r) :: rest =>
    if r = Ref.prim Prim.pFun then sanitizeFieldsM f st rest
    else
      match f st r with
      | none => none
      | some (r', st') =>
        match sanitizeFieldsM f st' rest with
        | none => none
        | some (out, st'') => some ((k, r') :: out, st'')

/-- Direct embedding of `sanitizeObject` (src/config/index.js) over the
heap model.  The `WeakMap` `visited` maps an input object to its
already-produced copy; here the copy of address `a` is allocated at the
same address in the output heap, so `visited` is the list of copied
addresses and a revisit returns `Ref.addr a` — the shared copy.  The
copy node itself is recorded once its children are done (in JS the copy
object exists from `visited.set` onward and is filled in place). -/
def sanitizeObject (h : Heap) :
    Nat → List Nat × Heap → Ref → Option (Ref × (List Nat × Heap))
  | 0, _, _ => none
  | fuel + 1, st, r =>
    match r with
    | .prim p => some (.prim p, st)
    | .addr a =>
      if a ∈ st.1 then some (.addr a, st)
      else
        match lookupNode h a with
        | none => none
        | some (.arr items) =>
          match stMapM (fun st' r0 => sanitizeObject h fuel st' r0)
              (st.1 ++ [a], st.2) items with
          | none => none
          | some (rs, st') => some (.addr a, (st'.1, st'.2 ++ [(a, HNode.arr rs)]))
        | some (.obj fields) =>
          match sanitizeFieldsM (fun st' r0 => sanitizeObject h fuel st' r0)
              (st.1 ++ [a], st.2) fields with
          | none => none
          | some (fs, st') => some (.addr a, (st'.1, st'.2 ++ [(a, HNode.obj fs)]))

/-- Number of heap addresses not yet visited: the decreasing measure for
both cycle-guarded traversals. -/
def unvisited (h : Heap) (seen : List Nat) : Nat :=
  ((h.map Prod.fst).toFinset \ seen.toFinset).card

/-! ### Refinement Adapter (src/services/geminiService.js) -/

/-- Drop leading JS whitespace. -/
def dropWs (cs : List Char) : List Char := cs.dropWhile Char.isWhitespace

/-- The `^` + backtick-fence part of `sanitizeGeminiResponse`:
`raw.replace(/^'''(json|javascript)?\s*/i, "")` (fence written with
backticks in the source).  The alternation tries `json` first, then
`javascript`, case-insensitively, then greedily eats whitespace. -/
def stripFenceStart (s : String) : String :=
  if charsHaveStart s.data "\x60\x60\x60".data then
    let t := s.drop 3
    let t2 :=
      if jsLower (t.take 4) = "json" then t.drop 4
      else if jsLower (t.take 10) = "javascript" then t.drop 10
      else t
    String.mk (dropWs t2.data)
  else s

/-- Model of the trailing-fence replace: strip one trailing backtick fence
and the whitespace run before it. -/
def stripFenceEnd (s : String) : String :=
  if charsHaveStart s.data.reverse "\x60\x60\x60".data.reverse then
    String.mk (((s.dropRight 3).data.reverse.dropWhile Char.isWhitespace).reverse)
  else s

/-- Model of `indexOf`: position of the first occurrence of `c`. -/
def idxOfChar (cs : List Char) (c : Char) : Option Nat :=
  match cs with
  | [] => none
  | d :: rest =>
    if d = c then some 0
    else
      match idxOfChar rest c with
      | some i => some (i + 1)
      | none => none

/-- Model of `lastIndexOf`: position of the last occurrence of `c`. -/
def lastIdxOfChar (cs : List Char) (c : Char) : Option Nat :=
  match idxOfChar cs.reverse c with
  | some i => some (cs.length - 1 - i)
  | none => none

/-- Direct embedding of `sanitizeGeminiResponse`
(src/services/geminiService.js, jsonrepair variant): strip code fences,
trim, cut everything before the first brace/bracket and after the last
closing brace/bracket, and trim again. -/
def sanitizeGeminiResponse (raw : String) : String :=
  if raw = "" then raw
  else
    let cleaned := jsTrim (stripFenceEnd (stripFenceStart raw))
    let cs := cleaned.data
    let start :=
      match idxOfChar cs '\x7b', idxOfChar cs '[' with
      | none, none => none
      | some c, none => some c
      | none, some sq => some sq
      | some c, some sq => some (min c sq)
    let cs1 :=
      match start with
      | some st => if st > 0 then cs.drop st else cs
      | none => cs
    let stop :=
      match lastIdxOfChar cs1 '\x7d', lastIdxOfChar cs1 ']' with
      | none, none => none
      | some c, none => some c
      | none, some sq => some sq
      | some c, some sq => some (max c sq)
    let cs2 :=
      match stop with
      | some en => cs1.take (en + 1)
      | none => cs1
    jsTrim (String.mk cs2)

/-- Direct embedding of `makeReplacementContextual`
(src/services/geminiService.js, jsonrepair variant).  External pieces
are parameters: `geminiResponse` is what `callGemini` produced (`none`
when the call failed and was caught), `jsonOk s` is whether
`JSON.parse(s)` succeeds, and `repair` is `jsonrepair` (`none` when it
throws).  The prompt strings play no role in the control flow. -/
def makeReplacementContextual (jsonOk : String → Bool) (repair : String → Option String)
    (modifiedJsonString : String) (geminiResponse : Option String) : String :=
  match geminiResponse with
  | none => modifiedJsonString
  | some raw =>
    if raw = "" then modifiedJsonString
    else
      let sanitized := sanitizeGeminiResponse raw
      if jsonOk sanitized then sanitized
      else
        match repair sanitized with
        | none => modifiedJsonString
        | some repaired => if jsonOk repaired then repaired else modifiedJsonString

/-! ### Change Applicator (src/unnamed/part_002) -/

/-- Scan a digit run after `[`; succeed only on a non-empty run followed
by `]`, returning the digits and the rest — the match of `\[(\d+)\]`. -/
def scanIdx (acc : List Char) : List Char → Option (List Char × List Char)
  | [] => none
  | c :: rest =>
    if c = ']' then (if acc = [] then none else some (acc.reverse, rest))
    else if c.isDigit then scanIdx (c :: acc) rest
    else none

/-- One left-to-right pass of
`path.replace(/\[(\d+)\]/g, ".$1")`: bracketed numeric segments become
dot segments; a `[` that does not open such a segment is kept and
scanning resumes right after it, as the global regex does.  `fuel` is
consumed once per emitted character, so `cs.length` always suffices. -/
def normChars : Nat → List Char → List Char
  | _, [] => []
  | 0, cs => cs
  | fuel + 1, c :: rest =>
    if c = '[' then
      match scanIdx [] rest with
      | some (ds, rest') => '.' :: ds ++ normChars fuel rest'
      | none => '[' :: normChars fuel rest
    else c :: normChars fuel rest

/-- Splitting on `.` over characters, as `split(".")`. -/
def splitOnDot : List Char → List (List Char)
  | [] => [[]]
  | c :: rest =>
    if c = '.' then [] :: splitOnDot rest
    else
      match splitOnDot rest with
      | seg :: segs => (c :: seg) :: segs
      | [] => [[c]]

/-- Full path normalization `path.replace(/\[(\d+)\]/g, ".$1").split(".")` — the key list
`setNestedValue` walks. -/
def splitPath (path : String) : List String :=
  (splitOnDot (normChars path.data.length path.data)).map String.mk

/-- JS property write `v[key] = w` for the tree model: updates an
existing object key or appends a new one; on arrays a canonical numeric
key writes in place (padding holes with `undefined` when past the end);
writes to scalar receivers are silent no-ops (sloppy mode). -/
def setProp (v : JsVal) (key : String) (w : JsVal) : JsVal :=
  match v with
  | vObj fs =>
    if (fs.map Prod.fst).contains key then
      vObj (fs.map fun kv => if kv.1 = key then (kv.1, w) else kv)
    else vObj (fs ++ [(key, w)])
  | vArr xs =>
    match strToNat? key with
    | some i =>
      if toString i = key then
        if i < xs.length then vArr (xs.set i w)
        else vArr (xs ++ List.replicate (i - xs.length) vUndefined ++ [w])
      else vArr xs
    | none => vArr xs
  | other => other

/-- The descent loop of `setNestedValue`: stop silently when an
intermediate key resolves to `undefined` or `null`, otherwise rebuild
the spine with the final key assigned. -/
def setNestedGo (w : JsVal) : JsVal → List String → JsVal
  | d, [] => d
  | d, [k] => setProp d k w
  | d, k :: rest =>
    match objGet d k with
    | vUndefined => d
    | vNull => d
    | child => setProp d k (setNestedGo w child rest)

/-- Direct embedding of `setNestedValue` (src/unnamed/part_002):
normalize the path, descend, and write `JSON.parse(value)` when that
succeeds, else the raw string.  `jsonParse` abstracts `JSON.parse`
(`none` = throws). -/
def setNestedValue (jsonParse : String → Option JsVal) (doc : JsVal)
    (path : String) (value : String) : JsVal :=
  setNestedGo
    (match jsonParse value with
     | some v => v
     | none => vStr value)
    doc (splitPath path)

/-- One caller-approved change request. -/
structure ChangeReq where
  entryUid : String
  field : String
  newValue : String
deriving DecidableEq, Repr

/-- One per-record outcome, matching the two `results.push` sites of
`apply`. -/
inductive ApplyRes where
  | updated (entryUid title : String) (changesApplied : Nat) : ApplyRes
  | failed (entryUid title error : String) : ApplyRes
deriving DecidableEq, Repr

def ApplyRes.isUpdated : ApplyRes → Bool
  | .updated _ _ _ => true
  | .failed _ _ _ => false

def ApplyRes.isFailed : ApplyRes → Bool
  | .updated _ _ _ => false
  | .failed _ _ _ => true

def ApplyRes.uid : ApplyRes → String
  | .updated u _ _ => u
  | .failed u _ _ => u

/-- The `apply` response body (totals plus per-record results). -/
structure ApplyReport where
  totalProcessed : Nat
  totalUpdated : Nat
  totalFailed : Nat
  results : List ApplyRes
deriving Repr

/-- The banned-term gate applied to `change.newValue` before each write:
`String(change.newValue || "").toLowerCase()` checked for containment of
any lower-cased banned term. -/
def isBannedValue (bannedTerms : List String) (newValue : String) : Bool :=
  bannedTerms.any fun term => strIncludes (jsLower newValue) (jsLower term)

/-- A change object passes the grouping validation
(`change && change.entryUid && change.field && change.newValue !== undefined`):
string truthiness for the uid and field. -/
def validChange (c : ChangeReq) : Bool :=
  c.entryUid ≠ "" && c.field ≠ ""

/-- Add one validated change to its uid's group, preserving
first-occurrence group order (JS object key insertion order). -/
def addToGroup (acc : List (String × List ChangeReq)) (c : ChangeReq) :
    List (String × List ChangeReq) :=
  if (acc.map Prod.fst).contains c.entryUid then
    acc.map fun g => if g.1 = c.entryUid then (g.1, g.2 ++ [c]) else g
  else acc ++ [(c.entryUid, [c])]

/-- The `changes.reduce(...)` grouping of `apply`: changes grouped by
`entryUid`, invalid ones dropped. -/
def groupByUid (changes : List ChangeReq) : List (String × List ChangeReq) :=
  changes.foldl (fun acc c => if validChange c then addToGroup acc c else acc) []

/-- Title extraction `entryData.title || "(no title)"` for string titles. -/
def jsTitle (doc : JsVal) : String :=
  match objGet doc "title" with
  | vStr s => if s = "" then "(no title)" else s
  | _ => "(no title)"

/-- The STEP-2 loop of `apply`: each change in the group is checked
against the banned terms; banned ones are skipped (the `console.warn`
is reified as a `(uid, field)` entry in the skip log), the rest are
written with `setNestedValue`. -/
def applyEdits (bannedTerms : List String) (jsonParse : String → Option JsVal)
    (uid : String) (doc : JsVal) (changes : List ChangeReq) :
    JsVal × List (String × String) :=
  changes.foldl
    (fun acc c =>
      if isBannedValue bannedTerms c.newValue then (acc.1, acc.2 ++ [(uid, c.field)])
      else (setNestedValue jsonParse acc.1 c.field c.newValue, acc.2))
    (doc, [])

/-- Write-back into the record store. -/
def storeSet (store : List (String × JsVal)) (uid : String) (doc : JsVal) :
    List (String × JsVal) :=
  store.map fun e => if e.1 = uid then (e.1, doc) else e

/-- Process one record group of `apply` (the body of the
`for (const [entryUid, entryChanges] of ...)` loop with its try/catch):
fetch the record, apply the non-banned edits in memory, persist once.
`persistOk` abstracts whether `updateEntry` succeeds for this uid; a
fetch miss or persist failure yields a `failed` result and leaves the
store unchanged. -/
def processGroup (bannedTerms : List String) (jsonParse : String → Option JsVal)
    (persistOk : String → Bool) (store : List (String × JsVal))
    (uid : String) (group : List ChangeReq) :
    ApplyRes × List (String × JsVal) × List (String × String) :=
  match List.lookup uid store with
  | none =>
    (.failed uid "(title unknown)"
      ("Entry with UID " ++ uid ++ " not found or is inaccessible."), store, [])
  | some doc =>
    let title := jsTitle doc
    let (doc', skips) := applyEdits bannedTerms jsonParse uid doc group
    if persistOk uid then
      (.updated uid title group.length, storeSet store uid doc', skips)
    else (.failed uid title "update failed", store, skips)

/-- One iteration of the per-entry loop of `apply`: process the group
against the current store, push the result, extend the skip log. -/
def applyStep (bannedTerms : List String) (jsonParse : String → Option JsVal)
    (persistOk : String → Bool)
    (acc : List ApplyRes × List (String × JsVal) × List (String × String))
    (g : String × List ChangeReq) :
    List ApplyRes × List (String × JsVal) × List (String × String) :=
  let t := processGroup bannedTerms jsonParse persistOk acc.2.1 g.1 g.2
  (acc.1 ++ [t.1], t.2.1, acc.2.2 ++ t.2.2)

/-- Direct embedding of `apply` (src/unnamed/part_002) after request
validation: group the changes by uid, process every group in order
(failures isolated per group), and report the totals the response body
computes.  Returns the report, the final store contents and the skip
log. -/
def apply (bannedTerms : List String) (jsonParse : String → Option JsVal)
    (persistOk : String → Bool) (store : List (String × JsVal))
    (changes : List ChangeReq) :
    ApplyReport × List (String × JsVal) × List (String × String) :=
  let groups := groupByUid changes
  let step := groups.foldl (applyStep bannedTerms jsonParse persistOk) ([], store, [])
  ({ totalProcessed := groups.length
     totalUpdated := (step.1.filter fun r => r.isUpdated).length
     totalFailed := (step.1.filter fun r => r.isFailed).length
     results := step.1 },
   step.2.1, step.2.2)

/-! ## Theorems -/

/-- Nested induction principle for `JsVal`. -/
theorem jsValInduction {P : JsVal → Prop}
    (hU : P vUndefined) (hN : P vNull) (hS : ∀ s, P (vStr s))
    (hI : ∀ n, P (vNum n)) (hB : ∀ b, P (vBool b)) (hF : P vFun)
    (hA : ∀ xs, (∀ x ∈ xs, P x) → P (vArr xs))
    (hO : ∀ fs, (∀ kv ∈ fs, P kv.2) → P (vObj fs)) :
    ∀ v, P v
  | vUndefined => hU
  | vNull => hN
  | vStr s => hS s
  | vNum n => hI n
  | vBool b => hB b
  | vFun => hF
  | vArr xs => hA xs fun x hx => jsValInduction hU hN hS hI hB hF hA hO x
  | vObj fs => hO fs fun kv hkv => jsValInduction hU hN hS hI hB hF hA hO kv.2
termination_by v => sizeOf v
decreasing_by
  · have := List.sizeOf_lt_of_mem hx
    simp
    omega
  · have h1 := List.sizeOf_lt_of_mem hkv
    obtain ⟨a, b⟩ := kv
    simp at h1 ⊢
    omega

theorem jsEqList_refl (xs : List JsVal) (h : ∀ x ∈ xs, jsEq x x = true) :
    jsEqList xs xs = true := by
  induction xs with
  | nil => rfl
  | cons x xs ih =>
    simp only [jsEqList, Bool.and_eq_true]
    exact ⟨h x (by simp), ih fun y hy => h y (by simp [hy])⟩

theorem jsEqFields_refl (fs : List (String × JsVal)) (h : ∀ kv ∈ fs, jsEq kv.2 kv.2 = true) :
    jsEqFields fs fs = true := by
  induction fs with
  | nil => rfl
  | cons kv fs ih =>
    obtain ⟨k, v⟩ := kv
    simp only [jsEqFields, Bool.and_eq_true]
    refine ⟨⟨by simp, h (k, v) (by simp)⟩, ih fun y hy => h y (by simp [hy])⟩

theorem jsEq_refl (v : JsVal) : jsEq v v = true := by
  induction v using jsValInduction with
  | hU => rfl
  | hN => rfl
  | hS s => simp [jsEq]
  | hI n => simp [jsEq]
  | hB b => simp [jsEq]
  | hF => rfl
  | hA xs h => exact jsEqList_refl xs h
  | hO fs h => exact jsEqFields_refl fs h

theorem one_le_sizeOf_list {α : Type} [SizeOf α] (xs : List α) : 1 ≤ sizeOf xs := by
  cases xs with
  | nil => simp
  | cons x xs => simp; omega

theorem sizeOf_arrIdx_le (xs : List JsVal) (i : Nat) :
    sizeOf (arrIdx xs i) ≤ sizeOf xs := by
  induction xs generalizing i with
  | nil => simp [arrIdx]
  | cons x xs ih =>
    cases i with
    | zero => simp [arrIdx]; omega
    | succ j => have := ih j; simp [arrIdx]; omega

theorem sizeOf_fieldsGet_le (fs : List (String × JsVal)) (key : String) :
    sizeOf (fieldsGet fs key) ≤ sizeOf fs := by
  induction fs with
  | nil => simp [fieldsGet]
  | cons kv fs ih =>
    obtain ⟨a, b⟩ := kv
    simp only [fieldsGet]
    by_cases hk : a = key
    · simp only [if_pos hk]; simp; omega
    · simp only [if_neg hk]; simp; omega

theorem sizeOf_arrGet_lt (v : JsVal) (i : Nat) (h : isArr v = true) :
    sizeOf (arrGet v i) < sizeOf v := by
  cases v with
  | vArr xs => have := sizeOf_arrIdx_le xs i; simp [arrGet]; omega
  | vUndefined => simp [isArr] at h
  | vNull => simp [isArr] at h
  | vStr s => simp [isArr] at h
  | vNum n => simp [isArr] at h
  | vBool b => simp [isArr] at h
  | vFun => simp [isArr] at h
  | vObj fs => simp [isArr] at h

theorem sizeOf_objGet_lt (v : JsVal) (key : String) (h : objLike v = true) :
    sizeOf (objGet v key) < sizeOf v := by
  cases v with
  | vObj fs => have := sizeOf_fieldsGet_le fs key; simp [objGet]; omega
  | vArr xs =>
    have hpos := one_le_sizeOf_list xs
    simp only [objGet]
    cases strToNat? key with
    | none => simp; omega
    | some i =>
      by_cases hi : toString i = key
      · have := sizeOf_arrIdx_le xs i
        simp [hi]
        omega
      · simp [hi]; omega
  | vUndefined => simp [objLike] at h
  | vNull => simp [objLike] at h
  | vStr s => simp [objLike] at h
  | vNum n => simp [objLike] at h
  | vBool b => simp [objLike] at h
  | vFun => simp [objLike] at h

/-- Unfold: identical (`===`-equal) sides yield no diff. -/
theorem getDifferences_nil_of_jsEq (o u : JsVal) (p : String) (h : jsEq o u = true) :
    getDifferences o u p = [] := by
  rw [getDifferences]
  simp [h]

/-- Unfold: equal display-normalized forms yield no diff. -/
theorem getDifferences_nil_of_fmt (o u : JsVal) (p : String)
    (h : formatValueForDiff o = formatValueForDiff u) :
    getDifferences o u p = [] := by
  rw [getDifferences]
  simp [h]

/-- Unfold: the element-wise array branch. -/
theorem getDifferences_arr (o u : JsVal) (p : String)
    (h1 : jsEq o u = false) (h2 : formatValueForDiff o ≠ formatValueForDiff u)
    (ha : (isArr o && isArr u) = true) :
    getDifferences o u p =
      (List.range (max (arrLen o) (arrLen u))).flatMap fun i =>
        getDifferences (arrGet o i) (arrGet u i) (p ++ "[" ++ toString i ++ "]") := by
  rw [getDifferences]
  simp [h1, h2, ha]

/-- Unfold: the key-union object branch. -/
theorem getDifferences_obj (o u : JsVal) (p : String)
    (h1 : jsEq o u = false) (h2 : formatValueForDiff o ≠ formatValueForDiff u)
    (ha : (isArr o && isArr u) = false) (ho : (objLike o && objLike u) = true) :
    getDifferences o u p =
      (dedupKeys (objKeys o ++ objKeys u)).flatMap fun k =>
        getDifferences (objGet o k) (objGet u k)
          (if p = "" then k else p ++ "." ++ k) := by
  rw [getDifferences]
  simp [h1, h2, ha, ho]

/-- Unfold: the leaf branch emits exactly one entry. -/
theorem getDifferences_leaf (o u : JsVal) (p : String)
    (h1 : jsEq o u = false) (h2 : formatValueForDiff o ≠ formatValueForDiff u)
    (ha : (isArr o && isArr u) = false) (ho : (objLike o && objLike u) = false) :
    getDifferences o u p =
      [{ field := p, before := formatValueForDiff o, after := formatValueForDiff u }] := by
  rw [getDifferences]
  simp [h1, h2, ha, ho]

/-- Every entry the diff engine ever emits has differing display values. -/
theorem diff_before_ne_after :
    ∀ (o u : JsVal) (p : String), ∀ e ∈ getDifferences o u p, e.before ≠ e.after := by
  suffices H : ∀ (n : Nat) (o u : JsVal) (p : String), sizeOf o + sizeOf u ≤ n →
      ∀ e ∈ getDifferences o u p, e.before ≠ e.after by
    intro o u p e he
    exact H (sizeOf o + sizeOf u) o u p le_rfl e he
  intro n
  induction n using Nat.strong_induction_on with
  | _ n ih =>
    intro o u p hn e he
    by_cases h1 : jsEq o u = true
    · rw [getDifferences_nil_of_jsEq o u p h1] at he
      simp at he
    · replace h1 : jsEq o u = false := by
        cases hj : jsEq o u with
        | true => exact absurd hj h1
        | false => rfl
      by_cases h2 : formatValueForDiff o = formatValueForDiff u
      · rw [getDifferences_nil_of_fmt o u p h2] at he
        simp at he
      · by_cases ha : (isArr o && isArr u) = true
        · rw [getDifferences_arr o u p h1 h2 ha] at he
          rw [List.mem_flatMap] at he
          obtain ⟨i, _, hmem⟩ := he
          simp only [Bool.and_eq_true] at ha
          have s1 := sizeOf_arrGet_lt o i ha.1
          have s2 := sizeOf_arrGet_lt u i ha.2
          exact ih (sizeOf (arrGet o i) + sizeOf (arrGet u i)) (by omega)
            (arrGet o i) (arrGet u i) _ le_rfl e hmem
        · replace ha : (isArr o && isArr u) = false := by
            cases hj : (isArr o && isArr u) with
            | true => exact absurd hj ha
            | false => rfl
          by_cases ho : (objLike o && objLike u) = true
          · rw [getDifferences_obj o u p h1 h2 ha ho] at he
            rw [List.mem_flatMap] at he
            obtain ⟨k, _, hmem⟩ := he
            simp only [Bool.and_eq_true] at ho
            have s1 := sizeOf_objGet_lt o k ho.1
            have s2 := sizeOf_objGet_lt u k ho.2
            exact ih (sizeOf (objGet o k) + sizeOf (objGet u k)) (by omega)
              (objGet o k) (objGet u k) _ le_rfl e hmem
          · replace ho : (objLike o && objLike u) = false := by
              cases hj : (objLike o && objLike u) with
              | true => exact absurd hj ho
              | false => rfl
            rw [getDifferences_leaf o u p h1 h2 ha ho] at he
            simp at he
            rw [he]
            simpa using h2

/-- The spec's display-normalization example: `diff({x:""},{x:null})`. -/
theorem diff_empty_string_vs_null :
    getDifferences (vObj [("x", vStr "")]) (vObj [("x", vNull)]) "" =
      [{ field := "x", before := "(empty string)", after := "(empty)" }] := by
  rw [getDifferences_obj _ _ _ (by decide) (by decide) (by decide) (by decide)]
  rw [show dedupKeys (objKeys (vObj [("x", vStr "")]) ++ objKeys (vObj [("x", vNull)])) =
      ["x"] from rfl]
  rw [List.flatMap_cons, List.flatMap_nil, List.append_nil]
  rw [show objGet (vObj [("x", vStr "")]) "x" = vStr "" from rfl,
      show objGet (vObj [("x", vNull)]) "x" = vNull from rfl]
  rw [getDifferences_leaf _ _ _ (by decide) (by decide) (by decide) (by decide)]
  rfl

/-- The spec's path-correctness example, as the code actually computes
it: the one differing leaf is at `a.b[1]` with before `"2"` (the
original's element), after `"9"`. -/
theorem diff_path_example :
    getDifferences (vObj [("a", vObj [("b", vArr [vNum 1, vNum 2])])])
      (vObj [("a", vObj [("b", vArr [vNum 1, vNum 9])])]) "" =
      [{ field := "a.b[1]", before := "2", after := "9" }] := by
  rw [getDifferences_obj _ _ _ (by decide) (by decide) (by decide) (by decide)]
  rw [show dedupKeys (objKeys (vObj [("a", vObj [("b", vArr [vNum 1, vNum 2])])]) ++
      objKeys (vObj [("a", vObj [("b", vArr [vNum 1, vNum 9])])])) = ["a"] from rfl]
  rw [List.flatMap_cons, List.flatMap_nil, List.append_nil]
  rw [show objGet (vObj [("a", vObj [("b", vArr [vNum 1, vNum 2])])]) "a" =
      vObj [("b", vArr [vNum 1, vNum 2])] from rfl,
      show objGet (vObj [("a", vObj [("b", vArr [vNum 1, vNum 9])])]) "a" =
      vObj [("b", vArr [vNum 1, vNum 9])] from rfl,
      show (if ("" : String) = "" then "a" else "" ++ "." ++ "a") = "a" from rfl]
  rw [getDifferences_obj _ _ _ (by decide) (by decide) (by decide) (by decide)]
  rw [show dedupKeys (objKeys (vObj [("b", vArr [vNum 1, vNum 2])]) ++
      objKeys (vObj [("b", vArr [vNum 1, vNum 9])])) = ["b"] from rfl]
  rw [List.flatMap_cons, List.flatMap_nil, List.append_nil]
  rw [show objGet (vObj [("b", vArr [vNum 1, vNum 2])]) "b" = vArr [vNum 1, vNum 2] from rfl,
      show objGet (vObj [("b", vArr [vNum 1, vNum 9])]) "b" = vArr [vNum 1, vNum 9] from rfl,
      show (if ("a" : String) = "" then "b" else "a" ++ "." ++ "b") = "a.b" from rfl]
  rw [getDifferences_arr _ _ _ (by decide) (by decide) (by decide)]
  rw [show List.range (max (arrLen (vArr [vNum 1, vNum 2])) (arrLen (vArr [vNum 1, vNum 9]))) =
      [0, 1] from rfl]
  rw [List.flatMap_cons, List.flatMap_cons, List.flatMap_nil, List.append_nil]
  rw [show arrGet (vArr [vNum 1, vNum 2]) 0 = vNum 1 from rfl,
      show arrGet (vArr [vNum 1, vNum 9]) 0 = vNum 1 from rfl,
      show arrGet (vArr [vNum 1, vNum 2]) 1 = vNum 2 from rfl,
      show arrGet (vArr [vNum 1, vNum 9]) 1 = vNum 9 from rfl]
  rw [getDifferences_nil_of_jsEq _ _ _ (by decide)]
  rw [getDifferences_leaf _ _ _ (by decide) (by decide) (by decide) (by decide)]
  rfl

theorem dedupKeys_foldl_nodup (kb : List String) :
    ∀ acc, kb.Nodup →
      kb.foldl (fun acc k => if k ∈ acc then acc else acc ++ [k]) acc =
        acc ++ kb.filter (fun x => decide (x ∉ acc)) := by
  induction kb with
  | nil => intro acc _; simp
  | cons k kb ih =>
    intro acc hkb
    rcases List.nodup_cons.mp hkb with ⟨hknotin, hnd⟩
    by_cases hk : k ∈ acc
    · have hpf : (decide (k ∉ acc)) = false := by simp [hk]
      simp only [List.foldl_cons, if_pos hk, List.filter_cons, hpf, Bool.false_eq_true,
        if_neg, not_false_eq_true]
      exact ih acc hnd
    · have hpt : (decide (k ∉ acc)) = true := by simp [hk]
      simp only [List.foldl_cons, if_neg hk, List.filter_cons, hpt, if_pos]
      rw [ih (acc ++ [k]) hnd]
      have hfeq : kb.filter (fun x => decide (x ∉ acc ++ [k])) =
          kb.filter (fun x => decide (x ∉ acc)) := by
        apply List.filter_congr
        intro x hx
        have hxk : x ≠ k := fun hxe => hknotin (hxe ▸ hx)
        simp [List.mem_append, hxk]
      rw [hfeq]
      simp

/-- Key union: `new Set([...Object.keys(o), ...Object.keys(u)])` enumerates the
original's keys first and then the updated side's new keys, when each
side's keys are duplicate-free (always true of JS objects). -/
theorem dedupKeys_append (ka kb : List String) (h1 : ka.Nodup) (h2 : kb.Nodup) :
    dedupKeys (ka ++ kb) = ka ++ kb.filter (fun x => decide (x ∉ ka)) := by
  unfold dedupKeys
  rw [List.foldl_append]
  rw [dedupKeys_foldl_nodup ka [] h1]
  rw [dedupKeys_foldl_nodup kb _ h2]
  simp

theorem arrIdx_of_le (xs : List JsVal) (i : Nat) (h : xs.length ≤ i) :
    arrIdx xs i = vUndefined := by
  induction xs generalizing i with
  | nil => rfl
  | cons x xs ih =>
    cases i with
    | zero => simp at h
    | succ j => simpa [arrIdx] using ih j (by simpa using h)

/-- Claim C1: the diff engine emits a `DiffEntry` only when the two
sides' display-normalized values differ (normalization per
`formatValueForDiff`: `undefined` to `"(not set)"`, `null` to
`"(empty)"`, whitespace-only strings to `"(empty string)"`, empty
array/object to their bracket forms, other objects to pretty-printed
JSON, other scalars to their string form); consequently `diff(D, D)` is
empty for every document, and `diff({x:""}, {x:null})` yields exactly
one entry with before `"(empty string)"` and after `"(empty)"`. -/
theorem claim_C1 :
    (∀ (o u : JsVal) (p : String), ∀ e ∈ getDifferences o u p, e.before ≠ e.after) ∧
    (∀ (d : JsVal) (p : String), getDifferences d d p = []) ∧
    getDifferences (vObj [("x", vStr "")]) (vObj [("x", vNull)]) "" =
      [{ field := "x", before := "(empty string)", after := "(empty)" }] := by
  refine ⟨diff_before_ne_after, ?_, diff_empty_string_vs_null⟩
  intro d p
  exact getDifferences_nil_of_jsEq d d p (jsEq_refl d)

theorem claim_C1_witness :
    ("(empty string)" : String) ≠ "(empty)" :=
  claim_C1.1 (vObj [("x", vStr "")]) (vObj [("x", vNull)]) ""
    { field := "x", before := "(empty string)", after := "(empty)" }
    (by rw [diff_empty_string_vs_null]; simp)

/-- Claim C2, counterexample: on `original={a:{b:[1,2]}}`,
`updated={a:{b:[1,9]}}` the code's single entry has before `"2"` (the
original's element at index 1), so the claimed result
`[{field:"a.b[1]", before:"1", after:"9"}]` is not what is produced. -/
theorem claim_C2_counterexample :
    getDifferences (vObj [("a", vObj [("b", vArr [vNum 1, vNum 2])])])
      (vObj [("a", vObj [("b", vArr [vNum 1, vNum 9])])]) "" ≠
      [{ field := "a.b[1]", before := "1", after := "9" }] := by
  rw [diff_path_example]
  decide

/-- Claim C2 (amended): when both sides are arrays the diff engine
recurses element-wise over `0 .. max(len(original), len(updated)) - 1`
with the shorter side padded with `undefined` and path suffix `[i]`;
when both sides are non-null objects (in the JS `typeof` sense) it
recurses over the union of keys, original's keys first then
updated-only keys, with suffix `.key` (bare key at the root); otherwise
it emits exactly one leaf entry at the current path — and the
`{a:{b:[1,9]}}` example yields exactly one entry at `a.b[1]` with
before `"2"` and after `"9"`. -/
theorem claim_C2 :
    (∀ (o u : JsVal) (p : String), jsEq o u = false →
      formatValueForDiff o ≠ formatValueForDiff u → (isArr o && isArr u) = true →
      getDifferences o u p =
        (List.range (max (arrLen o) (arrLen u))).flatMap fun i =>
          getDifferences (arrGet o i) (arrGet u i) (p ++ "[" ++ toString i ++ "]")) ∧
    (∀ (os : List JsVal) (i : Nat), os.length ≤ i → arrGet (vArr os) i = vUndefined) ∧
    (∀ (o u : JsVal) (p : String), jsEq o u = false →
      formatValueForDiff o ≠ formatValueForDiff u → (isArr o && isArr u) = false →
      (objLike o && objLike u) = true →
      (objKeys o).Nodup → (objKeys u).Nodup →
      getDifferences o u p =
        (objKeys o ++ (objKeys u).filter (fun k => decide (k ∉ objKeys o))).flatMap fun k =>
          getDifferences (objGet o k) (objGet u k)
            (if p = "" then k else p ++ "." ++ k)) ∧
    (∀ (o u : JsVal) (p : String), jsEq o u = false →
      formatValueForDiff o ≠ formatValueForDiff u → (isArr o && isArr u) = false →
      (objLike o && objLike u) = false →
      getDifferences o u p =
        [{ field := p, before := formatValueForDiff o, after := formatValueForDiff u }]) ∧
    getDifferences (vObj [("a", vObj [("b", vArr [vNum 1, vNum 2])])])
      (vObj [("a", vObj [("b", vArr [vNum 1, vNum 9])])]) "" =
      [{ field := "a.b[1]", before := "2", after := "9" }] := by
  refine ⟨getDifferences_arr, fun os i h => by simpa [arrGet] using arrIdx_of_le os i h,
    ?_, getDifferences_leaf, diff_path_example⟩
  intro o u p h1 h2 ha ho hko hku
  rw [getDifferences_obj o u p h1 h2 ha ho]
  rw [dedupKeys_append _ _ hko hku]

theorem claim_C2_witness :
    (getDifferences (vArr [vNum 1]) (vArr [vNum 2]) "p" =
      (List.range (max (arrLen (vArr [vNum 1])) (arrLen (vArr [vNum 2])))).flatMap fun i =>
        getDifferences (arrGet (vArr [vNum 1]) i) (arrGet (vArr [vNum 2]) i)
          ("p" ++ "[" ++ toString i ++ "]")) ∧
    arrGet (vArr [vNum 1]) 1 = vUndefined ∧
    (getDifferences (vObj [("a", vNum 1)]) (vObj [("b", vNum 2)]) "" =
      (objKeys (vObj [("a", vNum 1)]) ++
        (objKeys (vObj [("b", vNum 2)])).filter
          (fun k => decide (k ∉ objKeys (vObj [("a", vNum 1)])))).flatMap fun k =>
        getDifferences (objGet (vObj [("a", vNum 1)]) k) (objGet (vObj [("b", vNum 2)]) k)
          (if ("" : String) = "" then k else "" ++ "." ++ k)) ∧
    getDifferences (vNum 1) (vNum 2) "q" =
      [{ field := "q", before := formatValueForDiff (vNum 1),
         after := formatValueForDiff (vNum 2) }] :=
  ⟨claim_C2.1 (vArr [vNum 1]) (vArr [vNum 2]) "p" (by decide) (by decide) (by decide),
   claim_C2.2.1 [vNum 1] 1 (by decide),
   claim_C2.2.2.1 (vObj [("a", vNum 1)]) (vObj [("b", vNum 2)]) "" (by decide) (by decide)
     (by decide) (by decide) (by decide) (by decide),
   claim_C2.2.2.2.1 (vNum 1) (vNum 2) "q" (by decide) (by decide) (by decide) (by decide)⟩

theorem stMapM_length {σ α β : Type} (f : σ → α → Option (β × σ)) :
    ∀ (l : List α) (s : σ) (bs : List β) (s' : σ),
      stMapM f s l = some (bs, s') → bs.length = l.length := by
  intro l
  induction l with
  | nil =>
    intro s bs s' hst
    simp only [stMapM, Option.some.injEq, Prod.mk.injEq] at hst
    simp [← hst.1]
  | cons a rest ih =>
    intro s bs s' hst
    simp only [stMapM] at hst
    cases hf : f s a with
    | none => simp only [hf] at hst; exact Option.noConfusion hst
    | some bs1 =>
      obtain ⟨b1, s1⟩ := bs1
      simp only [hf] at hst
      cases hrest : stMapM f s1 rest with
      | none => simp only [hrest] at hst; exact Option.noConfusion hst
      | some p =>
        obtain ⟨bs2, s2⟩ := p
        simp only [hrest, Option.some.injEq, Prod.mk.injEq] at hst
        have := ih s1 bs2 s2 hrest
        simp [← hst.1, this]

theorem stMapM_obj_keys (g : List Nat → Ref → Option (JsVal × List Nat)) :
    ∀ (fields : List (String × Ref)) (s : List Nat)
      (out : List (String × JsVal)) (s' : List Nat),
      stMapM (traverseFieldStep g) s fields = some (out, s') →
      out.map Prod.fst = fields.map Prod.fst := by
  intro fields
  induction fields with
  | nil =>
    intro s out s' hst
    simp only [stMapM, Option.some.injEq, Prod.mk.injEq] at hst
    simp [← hst.1]
  | cons kv rest ih =>
    intro s out s' hst
    simp only [stMapM, traverseFieldStep] at hst
    cases hg : g s kv.2 with
    | none => simp only [hg] at hst; exact Option.noConfusion hst
    | some vs1 =>
      obtain ⟨v1, s1⟩ := vs1
      simp only [hg] at hst
      cases hrest : stMapM (traverseFieldStep g) s1 rest with
      | none => simp only [hrest] at hst; exact Option.noConfusion hst
      | some p =>
        obtain ⟨out2, s2⟩ := p
        simp only [hrest, Option.some.injEq, Prod.mk.injEq] at hst
        have := ih s1 out2 s2 hrest
        simp [← hst.1, this]

/-- Claim C3: for every string leaf the replacement engine applies the
replacers in list order, piping each output into the next
(`[r1, r2]` produces `r2(r1(s))`), `null`/`undefined` and non-string
scalars pass through unchanged, and the rebuilt tree preserves object
key order and array arity. -/
theorem claim_C3 :
    (∀ (h : Heap) (r1 r2 : String → String) (fuel : Nat) (seen : List Nat) (s : String),
      traverseAndModify h [r1, r2] (fuel + 1) seen (Ref.prim (Prim.pStr s)) =
        some (vStr (r2 (r1 s)), seen)) ∧
    (∀ (h : Heap) (reps : List (String → String)) (fuel : Nat) (seen : List Nat),
      traverseAndModify h reps (fuel + 1) seen (Ref.prim Prim.pNull) = some (vNull, seen) ∧
      traverseAndModify h reps (fuel + 1) seen (Ref.prim Prim.pUndef) =
        some (vUndefined, seen)) ∧
    (∀ (h : Heap) (reps : List (String → String)) (fuel : Nat) (seen : List Nat)
        (n : Int) (b : Bool),
      traverseAndModify h reps (fuel + 1) seen (Ref.prim (Prim.pNum n)) =
        some (vNum n, seen) ∧
      traverseAndModify h reps (fuel + 1) seen (Ref.prim (Prim.pBool b)) =
        some (vBool b, seen)) ∧
    (∀ (h : Heap) (reps : List (String → String)) (fuel : Nat) (seen : List Nat)
        (a : Nat) (fields : List (String × Ref)) (out : JsVal) (s' : List Nat),
      a ∉ seen → lookupNode h a = some (HNode.obj fields) →
      traverseAndModify h reps (fuel + 1) seen (Ref.addr a) = some (out, s') →
      ∃ fvs, out = vObj fvs ∧ fvs.map Prod.fst = fields.map Prod.fst) ∧
    (∀ (h : Heap) (reps : List (String → String)) (fuel : Nat) (seen : List Nat)
        (a : Nat) (items : List Ref) (out : JsVal) (s' : List Nat),
      a ∉ seen → lookupNode h a = some (HNode.arr items) →
      traverseAndModify h reps (fuel + 1) seen (Ref.addr a) = some (out, s') →
      ∃ vs, out = vArr vs ∧ vs.length = items.length) := by
  refine ⟨fun h r1 r2 fuel seen s => rfl, fun h reps fuel seen => ⟨rfl, rfl⟩,
    fun h reps fuel seen n b => ⟨rfl, rfl⟩, ?_, ?_⟩
  · intro h reps fuel seen a fields out s' hnot hlook htr
    simp only [traverseAndModify, if_neg hnot, hlook] at htr
    cases hst : stMapM (traverseFieldStep
        (fun s r0 => traverseAndModify h reps fuel s r0)) (seen ++ [a]) fields with
    | none => rw [hst] at htr; exact Option.noConfusion htr
    | some p =>
      obtain ⟨fvs1, s1⟩ := p
      rw [hst] at htr
      simp only [Option.some.injEq, Prod.mk.injEq] at htr
      exact ⟨fvs1, htr.1.symm,
        stMapM_obj_keys (fun s r0 => traverseAndModify h reps fuel s r0) fields
          (seen ++ [a]) fvs1 s1 hst⟩
  · intro h reps fuel seen a items out s' hnot hlook htr
    simp only [traverseAndModify, if_neg hnot, hlook] at htr
    cases hst : stMapM (fun s r0 => traverseAndModify h reps fuel s r0)
        (seen ++ [a]) items with
    | none => rw [hst] at htr; exact Option.noConfusion htr
    | some p =>
      obtain ⟨vs1, s1⟩ := p
      rw [hst] at htr
      simp only [Option.some.injEq, Prod.mk.injEq] at htr
      exact ⟨vs1, htr.1.symm, stMapM_length _ items _ vs1 s1 hst⟩

theorem claim_C3_witness :
    (traverseAndModify [] [fun s => s ++ "1", fun s => s ++ "2"] 1 []
        (Ref.prim (Prim.pStr "x")) = some (vStr "x12", [])) ∧
    (∃ fvs, vObj [("k", vStr "v")] = vObj fvs ∧
      fvs.map Prod.fst = [("k", Ref.prim (Prim.pStr "v"))].map Prod.fst) :=
  ⟨claim_C3.1 [] (fun s => s ++ "1") (fun s => s ++ "2") 0 [] "x",
   claim_C3.2.2.2.1 [(0, HNode.obj [("k", Ref.prim (Prim.pStr "v"))])] [] 1 [] 0
     [("k", Ref.prim (Prim.pStr "v"))] (vObj [("k", vStr "v")]) [0]
     (by decide) rfl rfl⟩

theorem mem_of_lookupNode {h : Heap} {a : Nat} {node : HNode}
    (hl : lookupNode h a = some node) : (a, node) ∈ h := by
  induction h with
  | nil => simp [lookupNode] at hl
  | cons p t ih =>
    obtain ⟨b, n⟩ := p
    simp only [lookupNode, List.lookup] at hl
    by_cases hab : a = b
    · subst hab
      simp only [beq_self_eq_true] at hl
      simp only [Option.some.injEq] at hl
      simp [hl]
    · have : (a == b) = false := beq_eq_false_iff_ne.mpr hab
      rw [this] at hl
      exact List.mem_cons_of_mem _ (ih hl)

theorem children_ok {h : Heap} {a : Nat} {node : HNode}
    (hwf : wfHeap h = true) (hm : (a, node) ∈ h) :
    ∀ r ∈ nodeRefs node, refOk h r = true := by
  intro r hr
  have := (List.all_eq_true.mp hwf) (a, node) hm
  exact (List.all_eq_true.mp this) r hr

theorem toFinset_subset_of_subset {s s' : List Nat} (hs : s ⊆ s') :
    s.toFinset ⊆ s'.toFinset := by
  intro x hx
  rw [List.mem_toFinset] at hx ⊢
  exact hs hx

theorem unvisited_le_of_sub (h : Heap) (s s' : List Nat) (hs : s ⊆ s') :
    unvisited h s' ≤ unvisited h s :=
  Finset.card_le_card
    (Finset.sdiff_subset_sdiff (Finset.Subset.refl _) (toFinset_subset_of_subset hs))

theorem unvisited_dec (h : Heap) (seen : List Nat) (a : Nat)
    (ha : a ∈ h.map Prod.fst) (hnot : a ∉ seen) :
    unvisited h (seen ++ [a]) < unvisited h seen := by
  unfold unvisited
  have hset : (seen ++ [a]).toFinset = insert a seen.toFinset := by
    ext x
    simp [List.mem_toFinset, List.mem_append, or_comm]
  rw [hset]
  have heq : (h.map Prod.fst).toFinset \ insert a seen.toFinset =
      ((h.map Prod.fst).toFinset \ seen.toFinset).erase a := by
    ext x
    simp only [Finset.mem_sdiff, Finset.mem_insert, Finset.mem_erase, List.mem_toFinset]
    tauto
  rw [heq]
  apply Finset.card_erase_lt_of_mem
  simp only [Finset.mem_sdiff, List.mem_toFinset]
  exact ⟨ha, hnot⟩

theorem stMapM_success {σ α β : Type} (f : σ → α → Option (β × σ))
    (sub : σ → σ → Prop) (hrefl : ∀ s, sub s s)
    (htrans : ∀ a b c, sub a b → sub b c → sub a c) :
    ∀ (l : List α) (s : σ),
      (∀ a s', a ∈ l → sub s s' → ∃ b s'', f s' a = some (b, s'') ∧ sub s' s'') →
      ∃ bs s'', stMapM f s l = some (bs, s'') ∧ sub s s'' := by
  intro l
  induction l with
  | nil => intro s _; exact ⟨[], s, rfl, hrefl s⟩
  | cons a rest ih =>
    intro s H
    obtain ⟨b, s1, hfa, hsub1⟩ := H a s (by simp) (hrefl s)
    obtain ⟨bs, s2, hrest, hsub2⟩ := ih s1 fun x s' hx hsub' =>
      H x s' (by simp [hx]) (htrans _ _ _ hsub1 hsub')
    exact ⟨b :: bs, s2, by simp [stMapM, hfa, hrest], htrans _ _ _ hsub1 hsub2⟩

theorem sanitizeFieldsM_success {σ : Type} (f : σ → Ref → Option (Ref × σ))
    (sub : σ → σ → Prop) (hrefl : ∀ s, sub s s)
    (htrans : ∀ a b c, sub a b → sub b c → sub a c) :
    ∀ (l : List (String × Ref)) (s : σ),
      (∀ kv s', kv ∈ l → sub s s' →
        ∃ b s'', f s' kv.2 = some (b, s'') ∧ sub s' s'') →
      ∃ out s'', sanitizeFieldsM f s l = some (out, s'') ∧ sub s s'' := by
  intro l
  induction l with
  | nil => intro s _; exact ⟨[], s, rfl, hrefl s⟩
  | cons kv rest ih =>
    intro s H
    obtain ⟨k, r⟩ := kv
    by_cases hfn : r = Ref.prim Prim.pFun
    · obtain ⟨out, s'', hrest, hsub⟩ := ih s fun x s' hx hsub' =>
        H x s' (by simp [hx]) hsub'
      exact ⟨out, s'', by simp [sanitizeFieldsM, hfn, hrest], hsub⟩
    · obtain ⟨b, s1, hfa, hsub1⟩ := H (k, r) s (by simp) (hrefl s)
      obtain ⟨out, s2, hrest, hsub2⟩ := ih s1 fun x s' hx hsub' =>
        H x s' (by simp [hx]) (htrans _ _ _ hsub1 hsub')
      exact ⟨(k, b) :: out, s2, by simp [sanitizeFieldsM, hfn, hfa, hrest],
        htrans _ _ _ hsub1 hsub2⟩

theorem traverse_success (h : Heap) (reps : List (String → String))
    (hwf : wfHeap h = true) :
    ∀ (fuel : Nat) (seen : List Nat) (r : Ref), refOk h r = true →
      unvisited h seen < fuel →
      ∃ v s', traverseAndModify h reps fuel seen r = some (v, s') ∧ seen ⊆ s' := by
  intro fuel
  induction fuel with
  | zero => intro seen r _ hu; omega
  | succ fuel ih =>
    intro seen r hr hu
    cases r with
    | prim p =>
      cases p with
      | pUndef => exact ⟨_, seen, rfl, List.Subset.refl seen⟩
      | pNull => exact ⟨_, seen, rfl, List.Subset.refl seen⟩
      | pStr s => exact ⟨_, seen, rfl, List.Subset.refl seen⟩
      | pNum n => exact ⟨_, seen, rfl, List.Subset.refl seen⟩
      | pBool b => exact ⟨_, seen, rfl, List.Subset.refl seen⟩
      | pFun => exact ⟨_, seen, rfl, List.Subset.refl seen⟩
    | addr a =>
      by_cases hmem : a ∈ seen
      · exact ⟨vStr "[Circular Reference]", seen,
          by simp [traverseAndModify, hmem], List.Subset.refl seen⟩
      · simp only [refOk] at hr
        obtain ⟨node, hnode⟩ := Option.isSome_iff_exists.mp hr
        have hmemh : (a, node) ∈ h := mem_of_lookupNode hnode
        have hkeys : a ∈ h.map Prod.fst := by
          exact List.mem_map.mpr ⟨(a, node), hmemh, rfl⟩
        have hdec := unvisited_dec h seen a hkeys hmem
        have hself : seen ⊆ seen ++ [a] := fun x hx => by simp [hx]
        cases node with
        | arr items =>
          have hchild := children_ok hwf hmemh
          obtain ⟨vs, s', hst, hsub⟩ :=
            stMapM_success (fun s r0 => traverseAndModify h reps fuel s r0)
              (fun x y => x ⊆ y) (fun s => List.Subset.refl s)
              (fun a b c => List.Subset.trans) items (seen ++ [a])
              (fun r0 s' hr0 hsub' => by
                obtain ⟨v, s'', htr, hsub''⟩ := ih s' r0 (hchild r0 hr0)
                  (by
                    have h1 := unvisited_le_of_sub h (seen ++ [a]) s' hsub'
                    omega)
                exact ⟨v, s'', htr, hsub''⟩)
          exact ⟨vArr vs, s', by simp [traverseAndModify, hmem, hnode, hst],
            List.Subset.trans hself hsub⟩
        | obj fields =>
          have hchild := children_ok hwf hmemh
          obtain ⟨fvs, s', hst, hsub⟩ :=
            stMapM_success (traverseFieldStep
                (fun s r0 => traverseAndModify h reps fuel s r0))
              (fun x y => x ⊆ y) (fun s => List.Subset.refl s)
              (fun a b c => List.Subset.trans) fields (seen ++ [a])
              (fun kv s' hkv hsub' => by
                obtain ⟨v, s'', htr, hsub''⟩ := ih s' kv.2
                  (hchild kv.2 (by
                    simp only [nodeRefs]
                    exact List.mem_map.mpr ⟨kv, hkv, rfl⟩))
                  (by
                    have h1 := unvisited_le_of_sub h (seen ++ [a]) s' hsub'
                    omega)
                exact ⟨(kv.1, v), s'', by simp [traverseFieldStep, htr], hsub''⟩)
          exact ⟨vObj fvs, s', by simp [traverseAndModify, hmem, hnode, hst],
            List.Subset.trans hself hsub⟩

theorem sanitize_success (h : Heap) (hwf : wfHeap h = true) :
    ∀ (fuel : Nat) (st : List Nat × Heap) (r : Ref), refOk h r = true →
      unvisited h st.1 < fuel →
      ∃ r' st', sanitizeObject h fuel st r = some (r', st') ∧ st.1 ⊆ st'.1 := by
  intro fuel
  induction fuel with
  | zero => intro st r _ hu; omega
  | succ fuel ih =>
    intro st r hr hu
    cases r with
    | prim p => exact ⟨Ref.prim p, st, rfl, List.Subset.refl _⟩
    | addr a =>
      by_cases hmem : a ∈ st.1
      · exact ⟨Ref.addr a, st, by simp [sanitizeObject, hmem], List.Subset.refl _⟩
      · simp only [refOk] at hr
        obtain ⟨node, hnode⟩ := Option.isSome_iff_exists.mp hr
        have hmemh : (a, node) ∈ h := mem_of_lookupNode hnode
        have hkeys : a ∈ h.map Prod.fst := List.mem_map.mpr ⟨(a, node), hmemh, rfl⟩
        have hdec := unvisited_dec h st.1 a hkeys hmem
        have hself : st.1 ⊆ st.1 ++ [a] := fun x hx => by simp [hx]
        cases node with
        | arr items =>
          have hchild := children_ok hwf hmemh
          obtain ⟨rs, st', hst, hsub⟩ :=
            stMapM_success (fun st' r0 => sanitizeObject h fuel st' r0)
              (fun x y => x.1 ⊆ y.1) (fun s => List.Subset.refl _)
              (fun a b c => List.Subset.trans) items (st.1 ++ [a], st.2)
              (fun r0 s' hr0 hsub' => by
                obtain ⟨r', s'', hsan, hsub''⟩ := ih s' r0 (hchild r0 hr0)
                  (by
                    have h1 := unvisited_le_of_sub h (st.1 ++ [a]) s'.1 hsub'
                    omega)
                exact ⟨r', s'', hsan, hsub''⟩)
          exact ⟨Ref.addr a, (st'.1, st'.2 ++ [(a, HNode.arr rs)]),
            by simp [sanitizeObject, hmem, hnode, hst],
            List.Subset.trans hself hsub⟩
        | obj fields =>
          have hchild := children_ok hwf hmemh
          obtain ⟨fs, st', hst, hsub⟩ :=
            sanitizeFieldsM_success (fun st' r0 => sanitizeObject h fuel st' r0)
              (fun x y => x.1 ⊆ y.1) (fun s => List.Subset.refl _)
              (fun a b c => List.Subset.trans) fields (st.1 ++ [a], st.2)
              (fun kv s' hkv hsub' => by
                obtain ⟨r', s'', hsan, hsub''⟩ := ih s' kv.2
                  (hchild kv.2 (by
                    simp only [nodeRefs]
                    exact List.mem_map.mpr ⟨kv, hkv, rfl⟩))
                  (by
                    have h1 := unvisited_le_of_sub h (st.1 ++ [a]) s'.1 hsub'
                    omega)
                exact ⟨r', s'', hsan, hsub''⟩)
          exact ⟨Ref.addr a, (st'.1, st'.2 ++ [(a, HNode.obj fs)]),
            by simp [sanitizeObject, hmem, hnode, hst],
            List.Subset.trans hself hsub⟩

theorem unvisited_lt_card (h : Heap) : unvisited h [] < h.length + 1 := by
  unfold unvisited
  have h1 : ([] : List Nat).toFinset = ∅ := rfl
  rw [h1, Finset.sdiff_empty]
  have h2 := List.toFinset_card_le (h.map Prod.fst)
  simp only [List.length_map] at h2
  omega

/-- Claim C4: on every well-formed heap — cyclic ones included — both
cycle-guarded walkers terminate (fuel `|heap| + 1` always succeeds);
the sanitizer answers a revisited node with the already-allocated copy
reference, so cycles collapse to shared substructure, while the
replacement engine answers a revisit with the `"[Circular Reference]"`
sentinel; on the self-referencing object both behaviours are computed
explicitly. -/
theorem claim_C4 :
    (∀ (h : Heap) (reps : List (String → String)) (r : Ref),
      wfHeap h = true → refOk h r = true →
      ∃ out, traverseAndModify h reps (h.length + 1) [] r = some out) ∧
    (∀ (h : Heap) (r : Ref), wfHeap h = true → refOk h r = true →
      ∃ out, sanitizeObject h (h.length + 1) ([], []) r = some out) ∧
    (∀ (h : Heap) (fuel : Nat) (st : List Nat × Heap) (a : Nat), a ∈ st.1 →
      sanitizeObject h (fuel + 1) st (Ref.addr a) = some (Ref.addr a, st)) ∧
    (∀ (h : Heap) (reps : List (String → String)) (fuel : Nat) (seen : List Nat) (a : Nat),
      a ∈ seen →
      traverseAndModify h reps (fuel + 1) seen (Ref.addr a) =
        some (vStr "[Circular Reference]", seen)) ∧
    (sanitizeObject [(0, HNode.obj [("self", Ref.addr 0)])] 2 ([], []) (Ref.addr 0) =
      some (Ref.addr 0, ([0], [(0, HNode.obj [("self", Ref.addr 0)])]))) ∧
    (traverseAndModify [(0, HNode.obj [("self", Ref.addr 0)])] [] 2 [] (Ref.addr 0) =
      some (vObj [("self", vStr "[Circular Reference]")], [0])) := by
  refine ⟨?_, ?_, ?_, ?_, rfl, rfl⟩
  · intro h reps r hwf hr
    obtain ⟨v, s', htr, _⟩ :=
      traverse_success h reps hwf (h.length + 1) [] r hr (unvisited_lt_card h)
    exact ⟨(v, s'), htr⟩
  · intro h r hwf hr
    obtain ⟨r', st', hsan, _⟩ :=
      sanitize_success h hwf (h.length + 1) ([], []) r hr (unvisited_lt_card h)
    exact ⟨(r', st'), hsan⟩
  · intro h fuel st a hmem
    simp [sanitizeObject, hmem]
  · intro h reps fuel seen a hmem
    simp [traverseAndModify, hmem]

theorem claim_C4_witness :
    (∃ out, traverseAndModify [(0, HNode.obj [("self", Ref.addr 0)])] []
      ([(0, HNode.obj [("self", Ref.addr 0)])].length + 1) [] (Ref.addr 0) = some out) ∧
    (∃ out, sanitizeObject [(0, HNode.obj [("self", Ref.addr 0)])]
      ([(0, HNode.obj [("self", Ref.addr 0)])].length + 1) ([], []) (Ref.addr 0) =
        some out) ∧
    sanitizeObject [] 1 ([5], []) (Ref.addr 5) = some (Ref.addr 5, ([5], [])) ∧
    traverseAndModify [] [] 1 [5] (Ref.addr 5) =
      some (vStr "[Circular Reference]", [5]) :=
  ⟨claim_C4.1 [(0, HNode.obj [("self", Ref.addr 0)])] [] (Ref.addr 0) (by decide) (by decide),
   claim_C4.2.1 [(0, HNode.obj [("self", Ref.addr 0)])] (Ref.addr 0) (by decide) (by decide),
   claim_C4.2.2.1 [] 0 ([5], []) 5 (by decide),
   claim_C4.2.2.2.1 [] [] 0 [5] 5 (by decide)⟩

theorem stMapM_sub {σ α β : Type} (f : σ → α → Option (β × σ)) (sub : σ → σ → Prop)
    (hrefl : ∀ s, sub s s) (htrans : ∀ a b c, sub a b → sub b c → sub a c)
    (hmono : ∀ s a b s', f s a = some (b, s') → sub s s') :
    ∀ (l : List α) (s : σ) (bs : List β) (s' : σ),
      stMapM f s l = some (bs, s') → sub s s' := by
  intro l
  induction l with
  | nil =>
    intro s bs s' hst
    simp only [stMapM, Option.some.injEq, Prod.mk.injEq] at hst
    exact hst.2 ▸ hrefl s
  | cons a rest ih =>
    intro s bs s' hst
    simp only [stMapM] at hst
    cases hf : f s a with
    | none => simp only [hf] at hst; exact Option.noConfusion hst
    | some p =>
      obtain ⟨b1, s1⟩ := p
      simp only [hf] at hst
      cases hrest : stMapM f s1 rest with
      | none => simp only [hrest] at hst; exact Option.noConfusion hst
      | some q =>
        obtain ⟨bs2, s2⟩ := q
        simp only [hrest, Option.some.injEq, Prod.mk.injEq] at hst
        exact hst.2 ▸ htrans _ _ _ (hmono s a b1 s1 hf) (ih s1 bs2 s2 hrest)

theorem traverse_mono (h : Heap) (reps : List (String → String)) :
    ∀ (fuel : Nat) (seen : List Nat) (r : Ref) (v : JsVal) (s' : List Nat),
      traverseAndModify h reps fuel seen r = some (v, s') → seen ⊆ s' := by
  intro fuel
  induction fuel with
  | zero => intro seen r v s' htr; exact Option.noConfusion htr
  | succ fuel ih =>
    intro seen r v s' htr
    cases r with
    | prim p =>
      cases p with
      | pUndef =>
        simp only [traverseAndModify, Option.some.injEq, Prod.mk.injEq] at htr
        exact htr.2 ▸ List.Subset.refl seen
      | pNull =>
        simp only [traverseAndModify, Option.some.injEq, Prod.mk.injEq] at htr
        exact htr.2 ▸ List.Subset.refl seen
      | pStr s =>
        simp only [traverseAndModify, Option.some.injEq, Prod.mk.injEq] at htr
        exact htr.2 ▸ List.Subset.refl seen
      | pNum n =>
        simp only [traverseAndModify, Option.some.injEq, Prod.mk.injEq] at htr
        exact htr.2 ▸ List.Subset.refl seen
      | pBool b =>
        simp only [traverseAndModify, Option.some.injEq, Prod.mk.injEq] at htr
        exact htr.2 ▸ List.Subset.refl seen
      | pFun =>
        simp only [traverseAndModify, Option.some.injEq, Prod.mk.injEq] at htr
        exact htr.2 ▸ List.Subset.refl seen
    | addr a =>
      have hself : seen ⊆ seen ++ [a] := fun x hx => by simp [hx]
      by_cases hmem : a ∈ seen
      · simp only [traverseAndModify, if_pos hmem, Option.some.injEq, Prod.mk.injEq] at htr
        exact htr.2 ▸ List.Subset.refl seen
      · simp only [traverseAndModify, if_neg hmem] at htr
        cases hnode : lookupNode h a with
        | none => simp only [hnode] at htr; exact Option.noConfusion htr
        | some node =>
          simp only [hnode] at htr
          cases node with
          | arr items =>
            cases hst : stMapM (fun s r0 => traverseAndModify h reps fuel s r0)
                (seen ++ [a]) items with
            | none => simp only [hst] at htr; exact Option.noConfusion htr
            | some p =>
              obtain ⟨vs, s2⟩ := p
              simp only [hst, Option.some.injEq, Prod.mk.injEq] at htr
              have hsub := stMapM_sub (fun s r0 => traverseAndModify h reps fuel s r0)
                (fun x y => x ⊆ y) (fun s => List.Subset.refl s)
                (fun a b c => List.Subset.trans)
                (fun s r0 b s'' hf => ih s r0 b s'' hf) items (seen ++ [a]) vs s2 hst
              exact htr.2 ▸ List.Subset.trans hself hsub
          | obj fields =>
            cases hst : stMapM (traverseFieldStep
                (fun s r0 => traverseAndModify h reps fuel s r0)) (seen ++ [a]) fields with
            | none => simp only [hst] at htr; exact Option.noConfusion htr
            | some p =>
              obtain ⟨fvs, s2⟩ := p
              simp only [hst, Option.some.injEq, Prod.mk.injEq] at htr
              have hsub := stMapM_sub (traverseFieldStep
                  (fun s r0 => traverseAndModify h reps fuel s r0))
                (fun x y => x ⊆ y) (fun s => List.Subset.refl s)
                (fun a b c => List.Subset.trans)
                (fun s kv b s'' hf => by
                  simp only [traverseFieldStep] at hf
                  cases hg : traverseAndModify h reps fuel s kv.2 with
                  | none => simp only [hg] at hf; exact Option.noConfusion hf
                  | some q =>
                    obtain ⟨v1, s1⟩ := q
                    simp only [hg, Option.some.injEq, Prod.mk.injEq] at hf
                    exact hf.2 ▸ ih s kv.2 v1 s1 hg)
                fields (seen ++ [a]) fvs s2 hst
              exact htr.2 ▸ List.Subset.trans hself hsub

theorem traverse_addr_mem (h : Heap) (reps : List (String → String)) :
    ∀ (fuel : Nat) (seen : List Nat) (a : Nat) (v : JsVal) (s' : List Nat),
      traverseAndModify h reps fuel seen (Ref.addr a) = some (v, s') → a ∈ s' := by
  intro fuel seen a v s' htr
  cases fuel with
  | zero => exact Option.noConfusion htr
  | succ fuel =>
    by_cases hmem : a ∈ seen
    · simp only [traverseAndModify, if_pos hmem, Option.some.injEq, Prod.mk.injEq] at htr
      exact htr.2 ▸ hmem
    · simp only [traverseAndModify, if_neg hmem] at htr
      have hmem' : a ∈ seen ++ [a] := by simp
      cases hnode : lookupNode h a with
      | none => simp only [hnode] at htr; exact Option.noConfusion htr
      | some node =>
        simp only [hnode] at htr
        cases node with
        | arr items =>
          cases hst : stMapM (fun s r0 => traverseAndModify h reps fuel s r0)
              (seen ++ [a]) items with
          | none => simp only [hst] at htr; exact Option.noConfusion htr
          | some p =>
            obtain ⟨vs, s2⟩ := p
            simp only [hst, Option.some.injEq, Prod.mk.injEq] at htr
            have hsub := stMapM_sub (fun s r0 => traverseAndModify h reps fuel s r0)
              (fun x y => x ⊆ y) (fun s => List.Subset.refl s)
              (fun a b c => List.Subset.trans)
              (fun s r0 b s'' hf => traverse_mono h reps fuel s r0 b s'' hf)
              items (seen ++ [a]) vs s2 hst
            exact htr.2 ▸ hsub hmem'
        | obj fields =>
          cases hst : stMapM (traverseFieldStep
              (fun s r0 => traverseAndModify h reps fuel s r0)) (seen ++ [a]) fields with
          | none => simp only [hst] at htr; exact Option.noConfusion htr
          | some p =>
            obtain ⟨fvs, s2⟩ := p
            simp only [hst, Option.some.injEq, Prod.mk.injEq] at htr
            have hsub := stMapM_sub (traverseFieldStep
                (fun s r0 => traverseAndModify h reps fuel s r0))
              (fun x y => x ⊆ y) (fun s => List.Subset.refl s)
              (fun a b c => List.Subset.trans)
              (fun s kv b s'' hf => by
                simp only [traverseFieldStep] at hf
                cases hg : traverseAndModify h reps fuel s kv.2 with
                | none => simp only [hg] at hf; exact Option.noConfusion hf
                | some q =>
                  obtain ⟨v1, s1⟩ := q
                  simp only [hg, Option.some.injEq, Prod.mk.injEq] at hf
                  exact hf.2 ▸ traverse_mono h reps fuel s kv.2 v1 s1 hg)
              fields (seen ++ [a]) fvs s2 hst
            exact htr.2 ▸ hsub hmem'

/-- Claim C9: the replacement engine's seen set is shared across the
whole traversal and never cleared — once an address has been entered it
stays in the set, and any reference to an already-seen address (cycle
or not) is replaced by `"[Circular Reference]"`; in particular on the
acyclic heap where address 1 occurs under both keys `x` and `y`, the
second occurrence is replaced by the sentinel. -/
theorem claim_C9 :
    (∀ (h : Heap) (reps : List (String → String)) (fuel : Nat) (seen : List Nat) (a : Nat),
      a ∈ seen →
      traverseAndModify h reps (fuel + 1) seen (Ref.addr a) =
        some (vStr "[Circular Reference]", seen)) ∧
    (∀ (h : Heap) (reps : List (String → String)) (fuel : Nat) (seen : List Nat)
        (r : Ref) (v : JsVal) (s' : List Nat),
      traverseAndModify h reps fuel seen r = some (v, s') → seen ⊆ s') ∧
    (∀ (h : Heap) (reps : List (String → String)) (fuel : Nat) (seen : List Nat)
        (a : Nat) (v : JsVal) (s' : List Nat),
      traverseAndModify h reps fuel seen (Ref.addr a) = some (v, s') → a ∈ s') ∧
    (traverseAndModify
      [(0, HNode.obj [("x", Ref.addr 1), ("y", Ref.addr 1)]),
       (1, HNode.obj [("v", Ref.prim (Prim.pStr "hi"))])] [] 3 [] (Ref.addr 0) =
      some (vObj [("x", vObj [("v", vStr "hi")]), ("y", vStr "[Circular Reference]")],
        [0, 1])) := by
  refine ⟨?_, traverse_mono, traverse_addr_mem, rfl⟩
  intro h reps fuel seen a hmem
  simp [traverseAndModify, hmem]

theorem claim_C9_witness :
    traverseAndModify [] [] 1 [7] (Ref.addr 7) = some (vStr "[Circular Reference]", [7]) ∧
    ([7] : List Nat) ⊆ [7] ∧ (7 : Nat) ∈ [7] :=
  ⟨claim_C9.1 [] [] 0 [7] 7 (by decide),
   claim_C9.2.1 [] [] 1 [7] (Ref.addr 7) (vStr "[Circular Reference]") [7] rfl,
   claim_C9.2.2.1 [] [] 1 [7] 7 (vStr "[Circular Reference]") [7] rfl⟩

/-- Claim C5, counterexample: sanitizing an array whose element is a
function keeps the callable in the copy (`typeof fn !== "object"`
returns it unchanged), so "every callable member, wherever it occurs,
is dropped" is false. -/
theorem claim_C5_counterexample :
    sanitizeObject [(0, HNode.arr [Ref.prim Prim.pFun])] 2 ([], []) (Ref.addr 0) =
      some (Ref.addr 0, ([0], [(0, HNode.arr [Ref.prim Prim.pFun])])) ∧
    Ref.prim Prim.pFun ∈ nodeRefs (HNode.arr [Ref.prim Prim.pFun]) :=
  ⟨rfl, by decide⟩

/-- Claim C5 (amended): the sanitizer produces a structurally
isomorphic copy in which *function-valued object properties* are
dropped; a function occurring as an array element or as the input value
itself is returned unchanged, and no non-function input ever becomes a
function in the copy. -/
theorem claim_C5 :
    (∀ (σ : Type) (f : σ → Ref → Option (Ref × σ)) (st : σ) (k : String)
        (rest : List (String × Ref)),
      sanitizeFieldsM f st ((k, Ref.prim Prim.pFun) :: rest) = sanitizeFieldsM f st rest) ∧
    (∀ (σ : Type) (f : σ → Ref → Option (Ref × σ)) (st : σ) (k : String) (r : Ref)
        (rest : List (String × Ref)), r ≠ Ref.prim Prim.pFun →
      sanitizeFieldsM f st ((k, r) :: rest) =
        (f st r).bind fun rs =>
          (sanitizeFieldsM f rs.2 rest).map fun os => ((k, rs.1) :: os.1, os.2)) ∧
    (∀ (h : Heap) (fuel : Nat) (st : List Nat × Heap) (p : Prim),
      sanitizeObject h (fuel + 1) st (Ref.prim p) = some (Ref.prim p, st)) ∧
    (∀ (h : Heap) (fuel : Nat) (st : List Nat × Heap) (r out : Ref)
        (st' : List Nat × Heap), r ≠ Ref.prim Prim.pFun →
      sanitizeObject h fuel st r = some (out, st') → out ≠ Ref.prim Prim.pFun) ∧
    (sanitizeObject [(0, HNode.obj [("f", Ref.prim Prim.pFun), ("s", Ref.prim (Prim.pStr "a"))])]
        2 ([], []) (Ref.addr 0) =
      some (Ref.addr 0, ([0],
        [(0, HNode.obj [("s", Ref.prim (Prim.pStr "a"))])]))) ∧
    (sanitizeObject [(0, HNode.arr [Ref.prim Prim.pFun])] 2 ([], []) (Ref.addr 0) =
      some (Ref.addr 0, ([0], [(0, HNode.arr [Ref.prim Prim.pFun])]))) := by
  refine ⟨?_, ?_, fun h fuel st p => rfl, ?_, rfl, rfl⟩
  · intro σ f st k rest
    simp [sanitizeFieldsM]
  · intro σ f st k r rest hr
    simp only [sanitizeFieldsM, if_neg hr]
    cases hf : f st r with
    | none => rfl
    | some rs =>
      obtain ⟨r', st'⟩ := rs
      cases hrest : sanitizeFieldsM f st' rest with
      | none => simp [hrest]
      | some os => simp [hrest]
  · intro h fuel st r out st' hr hsan
    cases fuel with
    | zero => exact Option.noConfusion hsan
    | succ fuel =>
      cases r with
      | prim p =>
        simp only [sanitizeObject, Option.some.injEq, Prod.mk.injEq] at hsan
        exact hsan.1 ▸ hr
      | addr a =>
        by_cases hmem : a ∈ st.1
        · simp only [sanitizeObject, if_pos hmem, Option.some.injEq, Prod.mk.injEq] at hsan
          intro hco
          exact Ref.noConfusion (hsan.1.trans hco)
        · simp only [sanitizeObject, if_neg hmem] at hsan
          cases hnode : lookupNode h a with
          | none => simp only [hnode] at hsan; exact Option.noConfusion hsan
          | some node =>
            simp only [hnode] at hsan
            cases node with
            | arr items =>
              cases hst : stMapM (fun st' r0 => sanitizeObject h fuel st' r0)
                  (st.1 ++ [a], st.2) items with
              | none => simp only [hst] at hsan; exact Option.noConfusion hsan
              | some p =>
                obtain ⟨rs, st2⟩ := p
                simp only [hst, Option.some.injEq, Prod.mk.injEq] at hsan
                intro hco
                exact Ref.noConfusion (hsan.1.trans hco)
            | obj fields =>
              cases hst : sanitizeFieldsM (fun st' r0 => sanitizeObject h fuel st' r0)
                  (st.1 ++ [a], st.2) fields with
              | none => simp only [hst] at hsan; exact Option.noConfusion hsan
              | some p =>
                obtain ⟨fs, st2⟩ := p
                simp only [hst, Option.some.injEq, Prod.mk.injEq] at hsan
                intro hco
                exact Ref.noConfusion (hsan.1.trans hco)

theorem claim_C5_witness :
    (sanitizeFieldsM (fun (st : List Nat × Heap) r0 => sanitizeObject [] 1 st r0)
        ([], []) [("k", Ref.prim Prim.pNull)] =
      (sanitizeObject [] 1 ([], []) (Ref.prim Prim.pNull)).bind fun rs =>
        (sanitizeFieldsM (fun (st : List Nat × Heap) r0 => sanitizeObject [] 1 st r0)
          rs.2 []).map fun os => (("k", rs.1) :: os.1, os.2)) ∧
    Ref.prim Prim.pNull ≠ Ref.prim Prim.pFun :=
  ⟨claim_C5.2.1 (List Nat × Heap) (fun st r0 => sanitizeObject [] 1 st r0) ([], [])
     "k" (Ref.prim Prim.pNull) [] (by decide),
   claim_C5.2.2.2.1 [] 1 ([], []) (Ref.prim Prim.pNull) (Ref.prim Prim.pNull) ([], [])
     (by decide) rfl⟩

/-- Claim C6: whenever the refinement call fails (`none` — the caught
transport error — or an empty, falsy response), or its text fails
`JSON.parse` after fence-stripping/JSON-block isolation and also fails
after `jsonrepair` (either the repair throws or its output still does
not parse), `makeReplacementContextual` returns the pre-refinement
document string unchanged; being a total function of its inputs, it
never propagates an error. -/
theorem claim_C6 :
    ∀ (jsonOk : String → Bool) (repair : String → Option String)
      (doc : String) (resp : Option String),
      (resp = none ∨ resp = some "" ∨
        (∀ raw, resp = some raw →
          jsonOk (sanitizeGeminiResponse raw) = false ∧
          (repair (sanitizeGeminiResponse raw) = none ∨
            (∀ rep, repair (sanitizeGeminiResponse raw) = some rep →
              jsonOk rep = false)))) →
      makeReplacementContextual jsonOk repair doc resp = doc := by
  intro jsonOk repair doc resp h
  cases resp with
  | none => rfl
  | some raw =>
    rcases h with h | h | h
    · exact Option.noConfusion h
    · have hraw : raw = "" := by injection h
      simp [makeReplacementContextual, hraw]
    · obtain ⟨h1, h2⟩ := h raw rfl
      by_cases hcase : raw = ""
      · simp [makeReplacementContextual, hcase]
      · simp only [makeReplacementContextual, if_neg hcase, h1, Bool.false_eq_true, if_false]
        rcases h2 with h2 | h2
        · simp [h2]
        · cases hrep : repair (sanitizeGeminiResponse raw) with
          | none => simp
          | some rep => simp [h2 rep hrep]

theorem claim_C6_witness :
    makeReplacementContextual (fun _ => false) (fun _ => none) "docText" (some "x") =
      "docText" :=
  claim_C6 (fun _ => false) (fun _ => none) "docText" (some "x")
    (Or.inr (Or.inr fun raw _ => ⟨rfl, Or.inl rfl⟩))

theorem applyEdits_spec (banned : List String) (parse : String → Option JsVal)
    (uid : String) :
    ∀ (changes : List ChangeReq) (doc : JsVal) (sk : List (String × String)),
      changes.foldl (fun acc c =>
        if isBannedValue banned c.newValue then (acc.1, acc.2 ++ [(uid, c.field)])
        else (setNestedValue parse acc.1 c.field c.newValue, acc.2)) (doc, sk) =
      (changes.foldl (fun d c => if isBannedValue banned c.newValue then d
          else setNestedValue parse d c.field c.newValue) doc,
       sk ++ (changes.filter fun c => isBannedValue banned c.newValue).map
         fun c => (uid, c.field)) := by
  intro changes
  induction changes with
  | nil => intro doc sk; simp
  | cons c cs ih =>
    intro doc sk
    by_cases hb : isBannedValue banned c.newValue = true
    · simp only [List.foldl_cons, List.filter_cons, hb, if_true]
      rw [ih]
      simp
    · have hb' : isBannedValue banned c.newValue = false := by
        cases hx : isBannedValue banned c.newValue with
        | true => exact absurd hx hb
        | false => rfl
      simp only [List.foldl_cons, List.filter_cons, hb', Bool.false_eq_true, if_false]
      rw [ih]

theorem processGroup_updated (banned : List String) (parse : String → Option JsVal)
    (persistOk : String → Bool) (store : List (String × JsVal)) (uid : String)
    (group : List ChangeReq) (doc : JsVal)
    (hl : List.lookup uid store = some doc) (hp : persistOk uid = true) :
    processGroup banned parse persistOk store uid group =
      (ApplyRes.updated uid (jsTitle doc) group.length,
       storeSet store uid (applyEdits banned parse uid doc group).1,
       (applyEdits banned parse uid doc group).2) := by
  simp [processGroup, hl, hp]

theorem apply_foldl_length (banned : List String) (parse : String → Option JsVal)
    (persistOk : String → Bool) :
    ∀ (groups : List (String × List ChangeReq))
      (acc : List ApplyRes × List (String × JsVal) × List (String × String)),
      (groups.foldl (applyStep banned parse persistOk) acc).1.length =
        acc.1.length + groups.length := by
  intro groups
  induction groups with
  | nil => intro acc; simp
  | cons g gs ih =>
    intro acc
    rw [List.foldl_cons, ih]
    simp [applyStep]
    omega

/-- Claim C7: before each field write during apply, the new value's
lower-cased text is re-checked for case-insensitive containment of any
banned term; a banned edit is skipped (the document fold ignores it)
and recorded in the skip log, while the enclosing record is still
persisted with an `updated` status counting the whole group. -/
theorem claim_C7 :
    (∀ (banned : List String) (parse : String → Option JsVal) (uid : String)
        (doc : JsVal) (changes : List ChangeReq),
      applyEdits banned parse uid doc changes =
        (changes.foldl (fun d c => if isBannedValue banned c.newValue then d
            else setNestedValue parse d c.field c.newValue) doc,
         (changes.filter fun c => isBannedValue banned c.newValue).map
           fun c => (uid, c.field))) ∧
    isBannedValue ["foo"] "this has Foo in it" = true ∧
    (∀ (banned : List String) (parse : String → Option JsVal)
        (persistOk : String → Bool) (store : List (String × JsVal)) (uid : String)
        (group : List ChangeReq) (doc : JsVal),
      List.lookup uid store = some doc → persistOk uid = true →
      processGroup banned parse persistOk store uid group =
        (ApplyRes.updated uid (jsTitle doc) group.length,
         storeSet store uid (applyEdits banned parse uid doc group).1,
         (applyEdits banned parse uid doc group).2)) := by
  refine ⟨fun banned parse uid doc changes => ?_, rfl, processGroup_updated⟩
  unfold applyEdits
  rw [applyEdits_spec]
  simp

theorem claim_C7_witness :
    processGroup ["k2"] (fun _ => none) (fun _ => true)
      [("e1", vObj [("title", vStr "T1"), ("text", vStr "Everest")])] "e1"
      [⟨"e1", "text", "K2 peak"⟩] =
      (ApplyRes.updated "e1"
        (jsTitle (vObj [("title", vStr "T1"), ("text", vStr "Everest")])) 1,
       storeSet [("e1", vObj [("title", vStr "T1"), ("text", vStr "Everest")])] "e1"
         (applyEdits ["k2"] (fun _ => none) "e1"
           (vObj [("title", vStr "T1"), ("text", vStr "Everest")])
           [⟨"e1", "text", "K2 peak"⟩]).1,
       (applyEdits ["k2"] (fun _ => none) "e1"
         (vObj [("title", vStr "T1"), ("text", vStr "Everest")])
         [⟨"e1", "text", "K2 peak"⟩]).2) :=
  claim_C7.2.2 ["k2"] (fun _ => none) (fun _ => true)
    [("e1", vObj [("title", vStr "T1"), ("text", vStr "Everest")])] "e1"
    [⟨"e1", "text", "K2 peak"⟩]
    (vObj [("title", vStr "T1"), ("text", vStr "Everest")]) rfl rfl

/-- Claim C8: one `ApplyRes` per record group regardless of failures
(a fetch miss or persist failure produces a `failed` result and leaves
the store untouched, without stopping the loop), the totals count the
`updated`/`failed` results, and in the two-group scenario where the
first persist fails and the second succeeds the report is
`totalUpdated=1, totalFailed=1` with the second record's edit in the
store. -/
theorem claim_C8 :
    (∀ (banned : List String) (parse : String → Option JsVal)
        (persistOk : String → Bool) (store : List (String × JsVal))
        (changes : List ChangeReq),
      (apply banned parse persistOk store changes).1.results.length =
        (groupByUid changes).length ∧
      (apply banned parse persistOk store changes).1.totalProcessed =
        (groupByUid changes).length ∧
      (apply banned parse persistOk store changes).1.totalUpdated =
        ((apply banned parse persistOk store changes).1.results.filter
          fun r => r.isUpdated).length ∧
      (apply banned parse persistOk store changes).1.totalFailed =
        ((apply banned parse persistOk store changes).1.results.filter
          fun r => r.isFailed).length) ∧
    (∀ (banned : List String) (parse : String → Option JsVal)
        (persistOk : String → Bool) (store : List (String × JsVal)) (uid : String)
        (group : List ChangeReq),
      List.lookup uid store = none →
      processGroup banned parse persistOk store uid group =
        (ApplyRes.failed uid "(title unknown)"
          ("Entry with UID " ++ uid ++ " not found or is inaccessible."), store, [])) ∧
    (∀ (banned : List String) (parse : String → Option JsVal)
        (persistOk : String → Bool) (store : List (String × JsVal)) (uid : String)
        (group : List ChangeReq) (doc : JsVal),
      List.lookup uid store = some doc → persistOk uid = false →
      (processGroup banned parse persistOk store uid group).1 =
        ApplyRes.failed uid (jsTitle doc) "update failed" ∧
      (processGroup banned parse persistOk store uid group).2.1 = store) ∧
    apply [] (fun _ => none) (fun u => u == "e2")
      [("e1", vObj [("title", vStr "T1"), ("text", vStr "Everest Base Camp")]),
       ("e2", vObj [("title", vStr "T2"), ("text", vStr "Everest again")])]
      [⟨"e1", "text", "K2 Base Camp"⟩, ⟨"e2", "text", "K2 again"⟩] =
      ({ totalProcessed := 2, totalUpdated := 1, totalFailed := 1,
         results := [ApplyRes.failed "e1" "T1" "update failed",
                     ApplyRes.updated "e2" "T2" 1] },
       [("e1", vObj [("title", vStr "T1"), ("text", vStr "Everest Base Camp")]),
        ("e2", vObj [("title", vStr "T2"), ("text", vStr "K2 again")])], []) := by
  refine ⟨?_, ?_, ?_, rfl⟩
  · intro banned parse persistOk store changes
    exact ⟨by simp [apply, apply_foldl_length], rfl, rfl, rfl⟩
  · intro banned parse persistOk store uid group hl
    simp [processGroup, hl]
  · intro banned parse persistOk store uid group doc hl hp
    constructor
    · simp [processGroup, hl, hp]
    · simp [processGroup, hl, hp]

theorem claim_C8_witness :
    processGroup [] (fun _ => none) (fun _ => true) [] "missing" [] =
      (ApplyRes.failed "missing" "(title unknown)"
        ("Entry with UID " ++ "missing" ++ " not found or is inaccessible."), [], []) ∧
    (processGroup [] (fun _ => none) (fun _ => false) [("e", vNull)] "e" []).1 =
      ApplyRes.failed "e" (jsTitle vNull) "update failed" ∧
    (processGroup [] (fun _ => none) (fun _ => false) [("e", vNull)] "e" []).2.1 =
      [("e", vNull)] :=
  ⟨claim_C8.2.1 [] (fun _ => none) (fun _ => true) [] "missing" [] rfl,
   (claim_C8.2.2.1 [] (fun _ => none) (fun _ => false) [("e", vNull)] "e" [] vNull
     rfl rfl).1,
   (claim_C8.2.2.1 [] (fun _ => none) (fun _ => false) [("e", vNull)] "e" [] vNull
     rfl rfl).2⟩

/-- Claim C10: a successfully persisted record group reports
`changesApplied` equal to the number of change requests grouped under
it, counting banned-term skips and silently-unresolved paths alike
(`setNestedValue` leaves the document unchanged when an intermediate
segment is `undefined`/`null`); the concrete run has one banned edit
and one dead path, leaves the document untouched, yet reports
`changesApplied = 2`. -/
theorem claim_C10 :
    (∀ (banned : List String) (parse : String → Option JsVal)
        (persistOk : String → Bool) (store : List (String × JsVal)) (uid : String)
        (group : List ChangeReq) (doc : JsVal),
      List.lookup uid store = some doc → persistOk uid = true →
      (processGroup banned parse persistOk store uid group).1 =
        ApplyRes.updated uid (jsTitle doc) group.length) ∧
    (∀ (w doc : JsVal) (k r : String) (rest : List String),
      objGet doc k = vUndefined ∨ objGet doc k = vNull →
      setNestedGo w doc (k :: r :: rest) = doc) ∧
    apply ["k2"] (fun _ => none) (fun _ => true)
      [("e1", vObj [("title", vStr "T1"), ("text", vStr "Everest Base Camp")])]
      [⟨"e1", "text", "K2 Base Camp"⟩, ⟨"e1", "bad.path", "x"⟩] =
      ({ totalProcessed := 1, totalUpdated := 1, totalFailed := 0,
         results := [ApplyRes.updated "e1" "T1" 2] },
       [("e1", vObj [("title", vStr "T1"), ("text", vStr "Everest Base Camp")])],
       [("e1", "text")]) := by
  refine ⟨?_, ?_, rfl⟩
  · intro banned parse persistOk store uid group doc hl hp
    rw [processGroup_updated banned parse persistOk store uid group doc hl hp]
  · intro w doc k r rest h
    rcases h with h | h <;> simp [setNestedGo, h]

theorem claim_C10_witness :
    ((processGroup ["zzz"] (fun _ => none) (fun _ => true) [("e1", vNull)] "e1"
      [⟨"e1", "a.b", "v"⟩, ⟨"e1", "c", "w"⟩]).1 =
      ApplyRes.updated "e1" (jsTitle vNull) 2) ∧
    setNestedGo (vStr "v") (vObj [("x", vNull)]) ["x", "y"] = vObj [("x", vNull)] :=
  ⟨claim_C10.1 ["zzz"] (fun _ => none) (fun _ => true) [("e1", vNull)] "e1"
     [⟨"e1", "a.b", "v"⟩, ⟨"e1", "c", "w"⟩] vNull rfl rfl,
   claim_C10.2.1 (vStr "v") (vObj [("x", vNull)]) "x" "y" [] (Or.inr rfl)⟩

end MagicReplace
